import Mathlib

set_option autoImplicit false

/-
Verification development for the Copy_of_Excel repository.

The Python sources (core_schema.py, cost_components.py, data_engine.py) are
shallowly embedded below: pure functions become Lean functions on lists of
characters and on a list-of-rows table model; pandas Series operations are
modelled element-wise; Python floats are modelled by exact rationals.
Library behaviour that the source relies on (str.strip, str.casefold on the
ASCII range, dict insertion-order semantics, unicodedata NFKD folding for
the Latin letters that can actually reach it) is modelled explicitly, with a
comment at each such definition.
-/

namespace CopyOfExcel

/-- Whitespace characters stripped by Python str.strip (ASCII subset:
space, tab, newline, carriage return, vertical tab, form feed). -/
def pyIsSpace (c : Char) : Bool :=
  c.toNat = 32 || c.toNat = 9 || c.toNat = 10 || c.toNat = 13 ||
  c.toNat = 11 || c.toNat = 12

/-- Python str.strip on a list of characters: drop whitespace at both ends. -/
def stripChars (l : List Char) : List Char :=
  ((l.dropWhile pyIsSpace).reverse.dropWhile pyIsSpace).reverse

/-- Python str.strip on a string. -/
def pyStrip (s : String) : String :=
  String.mk (stripChars s.data)

/-- ASCII lower-casing of one character.  Models Python str.lower and
str.casefold; both agree with this on the ASCII range, which is the only
range the sources feed them after diacritic folding (cell values outside
ASCII are folded identically by lower and casefold for the inputs the
claims quantify over). -/
def pyLowerChar (c : Char) : Char :=
  if 65 ≤ c.toNat ∧ c.toNat ≤ 90 then Char.ofNat (c.toNat + 32) else c

/-- ASCII lower-casing of a string (models str.lower / str.casefold). -/
def pyLower (s : String) : String :=
  String.mk (s.data.map pyLowerChar)

/-- The Turkish diacritic folding table _TURKISH_CHAR_MAP of core_schema.py,
applied with str.translate. -/
def turkishFold (c : Char) : Char :=
  if c = 'ı' then 'i' else if c = 'İ' then 'i'
  else if c = 'ş' then 's' else if c = 'Ş' then 's'
  else if c = 'ğ' then 'g' else if c = 'Ğ' then 'g'
  else if c = 'ö' then 'o' else if c = 'Ö' then 'o'
  else if c = 'ü' then 'u' else if c = 'Ü' then 'u'
  else if c = 'ç' then 'c' else if c = 'Ç' then 'c'
  else c

/-- Models unicodedata.normalize("NFKD", s).encode("ascii", "ignore") on one
character: identity on ASCII; common precomposed Latin letters decompose to
their ASCII base letter (their combining mark is dropped by the ASCII
encode); every other non-ASCII character is dropped. -/
def nfkdAsciiChar (c : Char) : List Char :=
  if c.toNat < 128 then [c]
  else if c = 'à' ∨ c = 'á' ∨ c = 'â' ∨ c = 'ã' ∨ c = 'ä' ∨ c = 'å' then ['a']
  else if c = 'è' ∨ c = 'é' ∨ c = 'ê' ∨ c = 'ë' then ['e']
  else if c = 'ì' ∨ c = 'í' ∨ c = 'î' ∨ c = 'ï' then ['i']
  else if c = 'ò' ∨ c = 'ó' ∨ c = 'ô' ∨ c = 'õ' then ['o']
  else if c = 'ù' ∨ c = 'ú' ∨ c = 'û' then ['u']
  else if c = 'ñ' then ['n'] else if c = 'ý' ∨ c = 'ÿ' then ['y']
  else if c = 'À' ∨ c = 'Á' ∨ c = 'Â' ∨ c = 'Ã' ∨ c = 'Ä' ∨ c = 'Å' then ['A']
  else if c = 'È' ∨ c = 'É' ∨ c = 'Ê' ∨ c = 'Ë' then ['E']
  else if c = 'Ì' ∨ c = 'Í' ∨ c = 'Î' ∨ c = 'Ï' then ['I']
  else if c = 'Ò' ∨ c = 'Ó' ∨ c = 'Ô' ∨ c = 'Õ' then ['O']
  else if c = 'Ù' ∨ c = 'Ú' ∨ c = 'Û' then ['U']
  else if c = 'Ñ' then ['N'] else if c = 'Ý' then ['Y']
  else []

/-- Character class of the regex [a-z0-9] used by core_schema.normalize
(the string is already lower-cased when the regex runs). -/
def isLowAlnum (c : Char) : Bool :=
  (97 ≤ c.toNat && c.toNat ≤ 122) || (48 ≤ c.toNat && c.toNat ≤ 57)

/-- One character of re.sub(r"[^a-z0-9]+", " ", s): alphanumeric characters
are kept, every other character becomes a space.  The source replaces each
maximal run by a single space; composing this character-wise map with
collapseSpaces below yields exactly the same final string, because the
follow-up re.sub(r"\s+", " ") collapses the produced space runs anyway. -/
def spaceifyChar (c : Char) : Char :=
  if isLowAlnum c then c else ' '

/-- Models re.sub(r"\s+", " ", s): collapse every run of spaces to a single
space.  At the point the source applies it, every whitespace character has
already been turned into a plain space by the previous substitution. -/
def collapseSpaces : List Char → List Char
  | [] => []
  | [c] => [c]
  | a :: b :: rest =>
    if a = ' ' && b = ' ' then collapseSpaces (b :: rest)
    else a :: collapseSpaces (b :: rest)

/-- core_schema.normalize on a list of characters: strip, Turkish fold,
NFKD + ASCII encode, lower-case, replace non-alphanumeric runs by a single
space, collapse whitespace, strip again. -/
def normalizeChars (l : List Char) : List Char :=
  stripChars (collapseSpaces
    (((((stripChars l).map turkishFold).flatMap nfkdAsciiChar).map
        pyLowerChar).map spaceifyChar))

/-- core_schema.normalize.  A null (None) input yields the empty key. -/
def normalize (x : Option String) : String :=
  match x with
  | none => ""
  | some s => String.mk (normalizeChars s.data)

/-- normalize on a string argument. -/
def normStr (s : String) : String := normalize (some s)

example : normStr "İş Yeri" = "is yeri" := by decide
example : normStr "is yeri" = "is yeri" := by decide
example : normStr "  PLANT!  code " = "plant code" := by decide
example : normalize none = "" := by decide

/-! Canonical schema (core_schema.DEFAULT_SCHEMA): field key, display label,
synonym list, in declaration order. -/

/-- DEFAULT_SCHEMA of core_schema.py as an ordered association list
(key, label, synonyms). -/
def DEFAULT_SCHEMA : List (String × String × List String) :=
  [("is_yeri_kodu", "İş Yeri Kodu",
      ["is yeri", "iş yeri", "plant", "site", "plant code", "işyeri", "isyeri"]),
   ("masraf_yeri_kodu", "Masraf Yeri Kodu",
      ["masraf yeri", "cost center", "cost centre", "cc", "masraf kodu"]),
   ("makine_kodu", "Makine Kodu",
      ["makina kodu", "ekipman kodu", "equipment code", "asset code"]),
   ("makine_adi", "Makine Adı",
      ["makina adi", "ekipman adı", "equipment name", "asset name"]),
   ("malzeme_adi", "Malzeme Adı",
      ["malzeme adi", "stok adı", "material name", "item name"])]

/-- FALLBACK_LABELS of data_engine.py. -/
def FALLBACK_LABELS : List (String × String) :=
  [("is_yeri_kodu", "İş Yeri Kodu"), ("masraf_yeri_kodu", "Masraf Yeri Kodu"),
   ("makine_kodu", "Makine Kodu")]

/-- Engine._cands: the candidate list [label, *synonyms, key] for a schema
key (label falls back to FALLBACK_LABELS, then to the key itself, when the
key is not in the schema). -/
def engineCands (key : String) : List String :=
  match DEFAULT_SCHEMA.find? (fun e => e.1 == key) with
  | some e => e.2.1 :: (e.2.2 ++ [key])
  | none =>
    match FALLBACK_LABELS.find? (fun e => e.1 == key) with
    | some e => [e.2, key]
    | none => [key, key]

/-! The column Mapper (core_schema.Mapper.suggest_mapping).

The observed headers are folded into the Python dict
{normalize(h): h for h in headers}: key iteration order is the order of
first occurrence of each normalized key, while the stored value for a key
is the LAST header assigned to it (later dict assignments overwrite the
value but keep the key position).  difflib.get_close_matches is a library
heuristic; it is modelled by an arbitrary predicate parameter
(fuzzy nh candNorm = true means the close-match search for the normalized
header nh against the normalized candidates returns a hit), so every one
of the theorems below quantifying over fuzzy holds for the real difflib
scoring in particular. -/

/-- Order of first occurrence of each element (the key order of a Python
dict built by successive assignments). -/
def firstDedup : List String → List String
  | [] => []
  | h :: t => h :: (firstDedup t).filter (fun x => !(x == h))

/-- Value stored in the dict {normalize(h): h for h in headers} at key n:
the last header whose normalized form is n. -/
def lookupLast (headers : List String) (n : String) : Option String :=
  headers.reverse.find? (fun h => normStr h == n)

/-- Mapper.suggest_mapping restricted to one canonical field: exact pass
over the normalized candidates in order, then (only on miss) the fuzzy
close-match pass over the normalized observed headers in dict key order. -/
def suggestField (fuzzy : String → List String → Bool) (headers : List String)
    (canonical : String) (syns : List String) : Option String :=
  let candNorm := (canonical :: syns).map normStr
  let keys := firstDedup (headers.map normStr)
  match candNorm.find? (fun c => keys.contains c) with
  | some c => lookupLast headers c
  | none =>
    match keys.find? (fun nh => fuzzy nh candNorm) with
    | some nh => lookupLast headers nh
    | none => none

/-- Mapper.suggest_mapping over a whole schema, in schema order. -/
def suggestMapping (fuzzy : String → List String → Bool)
    (schema : List (String × String × List String)) (headers : List String) :
    List (String × Option String) :=
  schema.map (fun e => (e.1, suggestField fuzzy headers e.1 e.2.2))

example :
    suggestField (fun _ _ => false) ["Plant Code", "XYZ"] "is_yeri_kodu"
      ["is yeri", "iş yeri", "plant", "site", "plant code", "işyeri", "isyeri"] =
    some "Plant Code" := by decide

example :
    suggestField (fun _ _ => false) ["PLANT!", "plant"] "is_yeri_kodu"
      ["is yeri", "iş yeri", "plant", "site", "plant code", "işyeri", "isyeri"] =
    some "plant" := by decide

/-! Column resolution by candidate lists, shared by
cost_components._find_col_by_candidates and
Engine.find_col_by_candidates: exact pass over the candidates against the
normalized-header dict, then a substring pass over the columns in order. -/

/-- Contiguous-substring test on character lists (the Python operator
needle in hay on strings). -/
def occursWithin (needle : List Char) : List Char → Bool
  | [] => needle.isEmpty
  | h :: t => needle.isPrefixOf (h :: t) || occursWithin needle t

/-- Substring test on strings. -/
def strOccursWithin (needle hay : String) : Bool :=
  occursWithin needle.data hay.data

/-- find_col_by_candidates over a list of column names. -/
def findColByCandidates (cols : List String) (cands : List String) :
    Option String :=
  match cands.find? (fun cand => cols.any (fun col => normStr col == normStr cand)) with
  | some cand => cols.reverse.find? (fun col => normStr col == normStr cand)
  | none =>
    cols.find? (fun col =>
      cands.any (fun cand => strOccursWithin (normStr cand) (normStr col)))

example : findColByCandidates ["A", "plant"] (engineCands "is_yeri_kodu") =
    some "plant" := by decide
example : findColByCandidates ["A"] (engineCands "is_yeri_kodu") = none := by
  decide
example : findColByCandidates ["myplantcol"] (engineCands "is_yeri_kodu") =
    some "myplantcol" := by decide

/-! Tabular data model.  A table is an ordered column-name list plus an
ordered row list; a row stores its non-null cells as an association list.
A missing key in a row is a null (NaN) cell, which pandas astype(str)
renders as the string "nan". -/

/-- A scalar cell value: a string or a number (Python floats are modelled
by exact rationals). -/
inductive Val where
  | str (s : String)
  | num (q : Rat)
deriving DecidableEq

/-- A row: a finite map from column name to non-null cell value. -/
def Row := List (String × Val)

instance : DecidableEq Row := by
  unfold Row
  exact inferInstance

/-- The cell of a row at a column (none = null / missing). -/
def cellOf (r : Row) (c : String) : Option Val :=
  (r.find? (fun p => p.1 == c)).map (fun p => p.2)

/-- pandas astype(str) on one cell: strings unchanged, numbers rendered,
null rendered as "nan". -/
def pyStr (v : Option Val) : String :=
  match v with
  | some (Val.str s) => s
  | some (Val.num q) => toString q
  | none => "nan"

/-- An ordered table: column names and rows. -/
structure Table where
  cols : List String
  rows : List Row
deriving DecidableEq

/-- pandas DataFrame.empty: true when there are no rows or no columns. -/
def Table.isEmpty (t : Table) : Bool :=
  t.rows.isEmpty || t.cols.isEmpty

/-- The values of one column, in row order (none = null). -/
def Table.column (t : Table) (c : String) : List (Option Val) :=
  t.rows.map (fun r => cellOf r c)

/-- pd.concat([a, b], ignore_index=True, join="outer") with sort left at
its default: the union of the column lists (first-frame columns first),
all rows of a followed by all rows of b, absent cells null. -/
def concatOuter (a b : Table) : Table :=
  ⟨a.cols ++ b.cols.filter (fun c => !(a.cols.contains c)), a.rows ++ b.rows⟩

/-! Engine state (data_engine.Engine): the system buffer src_df, the staged
buffer staged_df, and the manual scalar values.  File lists and the cached
processed_df play no part in the claims under verification and are
omitted from the state. -/

/-- The part of the Engine state that import, autofill and filter read and
write. -/
structure EngineState where
  src_df : Option Table
  staged_df : Option Table
  manual_values : List (String × String)
deriving DecidableEq

/-- Truthiness test df is None or df.empty. -/
def optEmpty (t : Option Table) : Bool :=
  match t with
  | none => true
  | some t => t.isEmpty

/-- One composite-key component of a row:
astype(str).str.strip().str.casefold() at a column. -/
def keyAt (r : Row) (c : String) : String :=
  pyLower (pyStrip (pyStr (cellOf r c)))

/-- Engine.import_staged_into_system.  Returns the new state together with
(removed_count, added_count). -/
def importStagedIntoSystem (st : EngineState) (replaceOnKeys : Bool) :
    EngineState × Nat × Nat :=
  match st.staged_df with
  | none => (st, 0, 0)
  | some staged =>
    if staged.isEmpty then (st, 0, 0)
    else
      match st.src_df with
      | none => ({ st with src_df := some staged }, 0, staged.rows.length)
      | some src =>
        if src.isEmpty then
          ({ st with src_df := some staged }, 0, staged.rows.length)
        else
          let topIs := findColByCandidates src.cols (engineCands "is_yeri_kodu")
          let topMs := findColByCandidates src.cols (engineCands "masraf_yeri_kodu")
          let botIs := findColByCandidates staged.cols (engineCands "is_yeri_kodu")
          let botMs := findColByCandidates staged.cols (engineCands "masraf_yeri_kodu")
          match replaceOnKeys, topIs, topMs, botIs, botMs with
          | true, some ti, some tm, some bi, some bm =>
            let keyPairs := staged.rows.map (fun r => (keyAt r bi, keyAt r bm))
            let kept := src.rows.filter
              (fun r => !(keyPairs.contains (keyAt r ti, keyAt r tm)))
            let removed := src.rows.length - kept.length
            ({ st with src_df := some (concatOuter ⟨src.cols, kept⟩ staged) },
              removed, staged.rows.length)
          | _, _, _, _, _ =>
            ({ st with src_df := some (concatOuter src staged) },
              0, staged.rows.length)

/-! Majority-vote autofill (Engine.autofill_manual_from_df). -/

/-- Lookup in manual_values with the Python dict .get default
(missing key behaves like the empty string for the truthiness test). -/
def manualGet (m : List (String × String)) (key : String) : String :=
  match m.find? (fun p => p.1 == key) with
  | some p => p.2
  | none => ""

/-- Assignment manual_values[key] = v. -/
def manualSet (m : List (String × String)) (key : String) (v : String) :
    List (String × String) :=
  m.filter (fun p => !(p.1 == key)) ++ [(key, v)]

/-- One step of the most-frequent-value scan: keep the candidate with the
strictly larger count, so the first-seen value wins ties. -/
def mcStep (l : List String) (acc : Option (String × Nat)) (v : String) :
    Option (String × Nat) :=
  match acc with
  | none => some (v, l.count v)
  | some p => if l.count v > p.2 then some (v, l.count v) else acc

/-- The most frequent value of a list together with its count, ties broken
by first occurrence.  Models value_counts().index[0] / .iloc[0]; pandas
leaves tie order unspecified, but ties are unreachable on the accepting
path (a value covering at least 90 percent of at least two distinct values
is strictly most frequent). -/
def mostCommon (l : List String) : Option (String × Nat) :=
  (firstDedup l).foldl (mcStep l) none

/-- The non-null value collection of Engine.autofill_manual_from_df:
stringify and trim the cells, then drop the exact null markers the source
replaces with NA. -/
def validValues (vals : List String) : List String :=
  (vals.map pyStrip).filter
    (fun v => !(v == "" || v == "nan" || v == "<NA>" || v == "None"))

/-- The per-column decision of Engine.autofill_manual_from_df, lines
186-202: accept a single distinct value, or the most frequent value when
its share is at least 0.9 of the non-null values.  The float comparison
ratio < 0.9 is modelled exactly as 10 * count < 9 * length. -/
def autofillDecision (vals : List String) : Option String :=
  if (validValues vals).isEmpty then none
  else if (firstDedup (validValues vals)).length = 1 then
    (firstDedup (validValues vals)).head?
  else
    match mostCommon (validValues vals) with
    | some p =>
      if 10 * p.2 < 9 * (validValues vals).length then none else some p.1
    | none => none

/-- Engine.autofill_manual_from_df: walk the requested keys, skip keys
already set (unless override), resolve a column by the Engine candidates,
apply the per-column decision, record filled keys in order. -/
def autofillManualFromDf (manual : List (String × String)) (df : Table)
    (keys : List String) (override : Bool) :
    List (String × String) × List String :=
  if df.isEmpty then (manual, [])
  else
    keys.foldl
      (fun acc key =>
        if !override && !(manualGet acc.1 key == "") then acc
        else
          match findColByCandidates df.cols (engineCands key) with
          | none => acc
          | some col =>
            match autofillDecision (df.rows.map (fun r => pyStr (cellOf r col))) with
            | none => acc
            | some v => (manualSet acc.1 key v, acc.2 ++ [key]))
      (manual, [])

example : autofillDecision ["A", "A", "A", "A", "B"] = none := by decide
example :
    autofillDecision ["A", "A", "A", "A", "A", "A", "A", "A", "A", "B"] =
    some "A" := by decide
example : autofillDecision [" A ", "A"] = some "A" := by decide
example : autofillDecision ["nan", ""] = none := by decide

/-! Cost component resolution and filtering (cost_components.py). -/

/-- The fixed component names. -/
def COMPONENTS : List String := ["AMOR", "DIS", "EDIS", "ENER", "GUG"]

/-- Resolved source columns (cost_components.FoundColumns). -/
structure FoundColumns where
  plant_col : Option String
  cctr_col : Option String
  comp_cols : List (String × Option String)
deriving DecidableEq

/-- PLANT_COL_CANDIDATES of cost_components.py. -/
def PLANT_COL_CANDIDATES : List String :=
  ["is yeri kodu", "iş yeri kodu", "is yeri", "işyeri", "plant", "site",
   "plant code"]

/-- CCTR_COL_CANDIDATES of cost_components.py. -/
def CCTR_COL_CANDIDATES : List String :=
  ["masraf yeri kodu", "masraf yeri", "cost center", "cost centre", "cc",
   "masraf kodu"]

/-- COMP_COL_CANDIDATES of cost_components.py. -/
def COMP_COL_CANDIDATES (comp : String) : List String :=
  if comp == "AMOR" then ["amor", "amortisman", "depreciation"]
  else if comp == "DIS" then
    ["dis", "di̇s", "direkt iscilik", "direkt işçilik", "direct labor", "dl"]
  else if comp == "EDIS" then
    ["edis", "endirekt iscilik", "endirekt işçilik", "indirect labor", "il"]
  else if comp == "ENER" then
    ["ener", "enerji", "electricity", "kwh", "energy cost", "elektrik"]
  else if comp == "GUG" then
    ["gug", "güg", "genel uretim gider", "genel üretim gider", "overhead", "oh"]
  else [comp]

/-- cost_components.resolve_columns. -/
def resolveColumns (t : Table) : FoundColumns :=
  ⟨findColByCandidates t.cols PLANT_COL_CANDIDATES,
   findColByCandidates t.cols CCTR_COL_CANDIDATES,
   COMPONENTS.map (fun comp =>
     (comp, findColByCandidates t.cols (COMP_COL_CANDIDATES comp)))⟩

/-- The per-row mask of cost_components.filter_by_codes for one key code
and one resolved column: the column values are stringified and trimmed; if
at least one row equals the code case-insensitively then the
case-insensitive equality mask is used, otherwise the case-insensitive
substring-containment mask (pandas str.contains with case=False,
regex=False).  The source computes the equality series once and tests
eq.any(); testing the same global condition inside the per-row function is
extensionally identical. -/
def keyMask (rows : List Row) (col : String) (code : String) (r : Row) : Bool :=
  if rows.any (fun r2 => pyLower (pyStrip (pyStr (cellOf r2 col))) == pyLower code)
  then pyLower (pyStrip (pyStr (cellOf r col))) == pyLower code
  else strOccursWithin (pyLower code) (pyLower (pyStrip (pyStr (cellOf r col))))

/-- cost_components.filter_by_codes: both constraints combine with logical
AND; an empty code or an unresolved column leaves its constraint out. -/
def filterByCodes (df : Table) (plantCode cctrCode : String)
    (found : FoundColumns) : Table :=
  if df.isEmpty then ⟨[], []⟩
  else
    let m1 : Row → Bool := fun r =>
      match found.plant_col with
      | some pc => if plantCode == "" then true else keyMask df.rows pc plantCode r
      | none => true
    let m2 : Row → Bool := fun r =>
      match found.cctr_col with
      | some cc => if cctrCode == "" then true else keyMask df.rows cc cctrCode r
      | none => true
    ⟨df.cols, df.rows.filter (fun r => m1 r && m2 r)⟩

example :
    (filterByCodes ⟨["plant"], [[("plant", Val.str "P1-EXT")]]⟩ "P1" ""
      ⟨some "plant", none, []⟩).rows = [[("plant", Val.str "P1-EXT")]] := by
  decide

example :
    (filterByCodes ⟨["plant"], [[("plant", Val.str "P1")], [("plant", Val.str "P1-EXT")]]⟩
      "p1" "" ⟨some "plant", none, []⟩).rows = [[("plant", Val.str "P1")]] := by
  decide

/-! Locale-tolerant numeric coercion (cost_components._to_float). -/

/-- Numeric value of a digit list read in base 10. -/
def digitsVal (l : List Char) : Nat :=
  l.foldl (fun n c => 10 * n + (c.toNat - 48)) 0

/-- All characters are ASCII digits. -/
def allDigits (l : List Char) : Bool :=
  l.all (fun c => 48 ≤ c.toNat && c.toNat ≤ 57)

/-- Parse an unsigned decimal literal (digits with at most one dot, at
least one digit overall) into an exact numerator / power-of-ten
denominator pair.  The pair representation is used because it reduces
inside the kernel, unlike normalized rational arithmetic. -/
def parseUnsigned (l : List Char) : Option (Int × Nat) :=
  match l.splitOn '.' with
  | [d] => if allDigits d && !d.isEmpty then some ((digitsVal d : Int), 1) else none
  | [a, b] =>
    if allDigits a && allDigits b && !(a.isEmpty && b.isEmpty) then
      some (((digitsVal a * 10 ^ b.length + digitsVal b : Nat) : Int), 10 ^ b.length)
    else none
  | _ => none

/-- Models the Python float constructor on strings for the decimal forms
the coercion pipeline produces: optional surrounding whitespace, optional
sign, digits with at most one decimal point; the value is returned as an
exact numerator / denominator pair.  Exponent notation, underscore
separators and the inf and nan words are not modelled; none of the
verified statements depends on them. -/
def pyFloatPair? (s : String) : Option (Int × Nat) :=
  match stripChars s.data with
  | '-' :: rest => (parseUnsigned rest).map (fun p => (-p.1, p.2))
  | '+' :: rest => parseUnsigned rest
  | l => parseUnsigned l

/-- Index of the last occurrence of a character (Python str.rfind, with 0
in place of -1 when absent; the two call sites guard on containment, and
when both separators are present both indices are genuine positions, so
the comparison is unaffected). -/
def rlastIdx (l : List Char) (c : Char) : Nat :=
  l.length - 1 - l.reverse.indexOf c

/-- cost_components._to_float on a string input, computed on exact
numerator / denominator pairs: strip; null markers give 0; when both
separators occur and the comma is right of the dot, spaces and dots are
removed and the comma becomes the decimal point, otherwise every comma
becomes a dot; then parse, falling back to parsing the raw input, and
finally to 0.  Total by construction: every failure path yields the pair
for 0.0. -/
def toFloatPair (x : String) : Int × Nat :=
  let s := pyStrip x
  if s == "" || pyLower s == "nan" || pyLower s == "<na>" || pyLower s == "none"
  then (0, 1)
  else
    let l := s.data
    let s2 : List Char :=
      if l.contains ',' && l.contains '.' && rlastIdx l ',' > rlastIdx l '.' then
        ((l.filter (fun c => !(c == ' '))).filter (fun c => !(c == '.'))).map
          (fun c => if c == ',' then '.' else c)
      else l.map (fun c => if c == ',' then '.' else c)
    match pyFloatPair? (String.mk s2) with
    | some p => p
    | none =>
      match pyFloatPair? x with
      | some p => p
      | none => (0, 1)

/-- The rational value of a numerator / denominator pair. -/
def pairToRat (p : Int × Nat) : Rat :=
  (p.1 : Rat) / (p.2 : Rat)

/-- cost_components._to_float: the rational value of the parsed pair.
Python computes in binary floating point; the claims under verification
only involve values that floats represent faithfully enough for every
stated comparison, so the exact rational model is used. -/
def toFloat (x : String) : Rat :=
  pairToRat (toFloatPair x)

example : toFloatPair "1.234,56" = (123456, 100) := by decide
example : toFloatPair "1234.56" = (123456, 100) := by decide
example : toFloatPair "1234,56" = (123456, 100) := by decide
example : toFloatPair "1,234.56" = (0, 1) := by decide
example : toFloatPair "" = (0, 1) := by decide
example : toFloatPair "  NaN " = (0, 1) := by decide
example : toFloatPair "abc" = (0, 1) := by decide
example : toFloatPair "-12,5" = (-125, 10) := by decide
example : toFloat "1.234,56" = 123456 / 100 := by
  have h : toFloatPair "1.234,56" = (123456, 100) := by decide
  simp only [toFloat, h, pairToRat]
  norm_num

/-! Formula evaluation (cost_components.eval_formulas_on_rows).

The source evaluates each validated expression with the Python eval under
an environment binding exactly the five component names (a column Series
when the column exists, the scalar 0.0 otherwise).  That evaluation step
is a host-language collaborator; it is modelled by an arbitrary function
parameter evalFn from the expression string and the environment to an
optional result column (none models an exception, which the source
swallows).  Every theorem below quantifies over evalFn, so it holds for
the concrete Python evaluator in particular. -/

/-- What a component name is bound to in the eval environment: the column
Series, or the scalar 0.0 when the table has no such column. -/
inductive Binding where
  | series (vals : List (Option Val))
  | scalar (q : Rat)
deriving DecidableEq

/-- The local environment of eval: each of the five components, bound to
the current output column when present and to the scalar 0.0 otherwise. -/
def localEnv (out : Table) : List (String × Binding) :=
  COMPONENTS.map (fun comp =>
    (comp, if out.cols.contains comp then Binding.series (out.column comp)
           else Binding.scalar 0))

/-- Python str.isalnum for one character, restricted to ASCII (the only
non-ASCII characters Python additionally accepts are alphanumeric letters,
which can never occur in an expression the restricted eval environment
evaluates successfully, so the restriction does not change which formulas
produce columns). -/
def pyIsAlnumChar (c : Char) : Bool :=
  (65 ≤ c.toNat && c.toNat ≤ 90) || (97 ≤ c.toNat && c.toNat ≤ 122) ||
  (48 ≤ c.toNat && c.toNat ≤ 57)

/-- The character validation of eval_formulas_on_rows: every character is
alphanumeric, whitespace, or one of + - * / _. -/
def validExpr (e : String) : Bool :=
  e.data.all (fun c =>
    pyIsAlnumChar c || pyIsSpace c ||
    c == '+' || c == '-' || c == '*' || c == '/' || c == '_')

/-- Write one cell of a row (out[name] = value at one row): none erases
the cell (a null result), some overwrites or appends it. -/
def setCell (r : Row) (name : String) (v : Option Val) : Row :=
  match v with
  | some v => r.filter (fun p => !(p.1 == name)) ++ [(name, v)]
  | none => r.filter (fun p => !(p.1 == name))

/-- Column assignment out[name] = column: appends the column name when new,
and writes the i-th result value into the i-th row. -/
def setColumn (t : Table) (name : String) (vals : List (Option Val)) : Table :=
  ⟨if t.cols.contains name then t.cols else t.cols ++ [name],
   (List.range t.rows.length).zip t.rows |>.map
     (fun p => setCell p.2 name ((vals.get? p.1).bind id))⟩

/-- The loop body of eval_formulas_on_rows for one (name, expression)
pair: skip it unless every character of the expression is allowed;
evaluate it under the component environment of the current output; on
success assign the result column, on failure (evalFn = none) leave the
output untouched. -/
def evalStep (evalFn : String → List (String × Binding) → Option (List (Option Val)))
    (out : Table) (nf : String × String) : Table :=
  if !(validExpr nf.2) then out
  else
    match evalFn nf.2 (localEnv out) with
    | some vals => setColumn out nf.1 vals
    | none => out

/-- cost_components.eval_formulas_on_rows: start from a copy of the
component table and fold the loop body over the formulas in order. -/
def evalFormulasOnRows (evalFn : String → List (String × Binding) → Option (List (Option Val)))
    (df : Table) (formulas : List (String × String)) : Table :=
  formulas.foldl (evalStep evalFn) df

example : validExpr "AMOR + DIS + EDIS + ENER + GUG" = true := by decide
example : validExpr "AMOR; import os" = false := by decide
example :
    (evalFormulasOnRows (fun _ _ => none) ⟨["AMOR"], [[("AMOR", Val.str "1")]]⟩
      [("X", "AMOR; import os")]).cols = ["AMOR"] := by decide
example :
    (evalFormulasOnRows (fun _ _ => some [some (Val.num 1)])
      ⟨["AMOR"], [[("AMOR", Val.str "1")]]⟩
      [("X", "AMOR")]).cols = ["AMOR", "X"] := by decide

/-- Specification-side per-key row mask, phrased as the claim states it:
an empty code imposes no constraint; otherwise, when at least one row of
the table equals the code after stringify + trim + casefold, the
case-insensitive equality mask is used, and otherwise the
case-insensitive substring containment mask. -/
def filterSpecPass (rows : List Row) (col code : String) (r : Row) : Bool :=
  if code = "" then true
  else if _h : ∃ r0 ∈ rows, pyLower (pyStrip (pyStr (cellOf r0 col))) = pyLower code
  then decide (pyLower (pyStrip (pyStr (cellOf r col))) = pyLower code)
  else strOccursWithin (pyLower code) (pyLower (pyStrip (pyStr (cellOf r col))))

/-- A character that can appear in a normalize output: lower-case ASCII
alphanumeric or the space. -/
def cleanCh (c : Char) : Bool :=
  isLowAlnum c || (c == ' ')

/-- No two adjacent spaces. -/
abbrev NoTwo (l : List Char) : Prop :=
  List.Chain' (fun a b => ¬(a = ' ' ∧ b = ' ')) l

/-! Helper lemmas. -/

/-- Evaluation helper: a computed parse pair determines the float value. -/
theorem toFloat_of_pair {s : String} {n : Int} {d : Nat}
    (h : toFloatPair s = (n, d)) : toFloat s = (n : Rat) / (d : Rat) := by
  simp only [toFloat, h, pairToRat]

/-! C2: numeric coercion (claim corrected).

The claim asserts that with both separators present the rightmost one is
always the decimal separator, instancing to_float("1,234.56") == 1234.56.
The source only special-cases a comma RIGHT of a dot; with the dot
rightmost it replaces every comma by a dot, so "1,234.56" becomes
"1.234.56", fails to parse, and the fallback on the raw string fails too,
yielding 0.0. -/

/-- C2 counterexample: to_float("1,234.56") is 0.0, not 1234.56 as the
claim states. -/
theorem to_float_comma_dot_claim_false :
    toFloat "1,234.56" = 0 ∧ (0 : Rat) ≠ 123456 / 100 := by
  constructor
  · rw [toFloat_of_pair (show toFloatPair "1,234.56" = (0, 1) by decide)]
    norm_num
  · norm_num

/-- C2 (amended): to_float never raises (it is a total function by
construction); after stripping, the empty string and the null markers
"nan", "<na>", "none" (case-insensitively) yield 0.0; when both a comma
and a dot occur and the comma is rightmost, spaces and dots are removed
and the comma becomes the decimal point (to_float("1.234,56") ==
1234.56); when the dot is rightmost and a comma is present, every comma
becomes a dot and the resulting multi-dot string fails to parse, yielding
0.0 (to_float("1,234.56") == 0.0); when only a comma is present it is the
decimal separator; otherwise the string is parsed as-is
(to_float("1234.56") == 1234.56); any unparseable input yields 0.0. -/
theorem to_float_locale_corrected :
    (∀ s : String,
        pyStrip s = "" ∨ pyLower (pyStrip s) = "nan" ∨
        pyLower (pyStrip s) = "<na>" ∨ pyLower (pyStrip s) = "none" →
        toFloat s = 0) ∧
    toFloat "1.234,56" = 123456 / 100 ∧
    toFloat "1 234.567,89" = 123456789 / 100 ∧
    toFloat "1234.56" = 123456 / 100 ∧
    toFloat "1234,56" = 123456 / 100 ∧
    toFloat "1,234.56" = 0 ∧
    toFloat "" = 0 ∧
    toFloat "abc" = 0 := by
  refine ⟨?_, ?_, ?_, ?_, ?_, ?_, ?_, ?_⟩
  · intro s h
    have hc : (pyStrip s == "" || pyLower (pyStrip s) == "nan" ||
        pyLower (pyStrip s) == "<na>" || pyLower (pyStrip s) == "none") = true := by
      rcases h with h | h | h | h <;> simp [h]
    have hp : toFloatPair s = (0, 1) := by
      simp only [toFloatPair]
      rw [if_pos hc]
    rw [toFloat_of_pair hp]
    norm_num
  · rw [toFloat_of_pair (show toFloatPair "1.234,56" = (123456, 100) by decide)]
    norm_num
  · rw [toFloat_of_pair
      (show toFloatPair "1 234.567,89" = (123456789, 100) by decide)]
    norm_num
  · rw [toFloat_of_pair (show toFloatPair "1234.56" = (123456, 100) by decide)]
    norm_num
  · rw [toFloat_of_pair (show toFloatPair "1234,56" = (123456, 100) by decide)]
    norm_num
  · rw [toFloat_of_pair (show toFloatPair "1,234.56" = (0, 1) by decide)]
    norm_num
  · rw [toFloat_of_pair (show toFloatPair "" = (0, 1) by decide)]
    norm_num
  · rw [toFloat_of_pair (show toFloatPair "abc" = (0, 1) by decide)]
    norm_num

/-- C2 witness: the null-marker rule applied at the concrete input
"  NONE  ". -/
theorem to_float_locale_corrected_witness : toFloat "  NONE  " = 0 :=
  to_float_locale_corrected.1 "  NONE  " (Or.inr (Or.inr (Or.inr (by decide))))

/-! Helper lemmas about rows, columns and the evaluator fold. -/

/-- find? distributes over append. -/
theorem find?_append {α : Type} (l1 l2 : List α) (p : α → Bool) :
    (l1 ++ l2).find? p =
      match l1.find? p with
      | some x => some x
      | none => l2.find? p := by
  induction l1 with
  | nil => simp
  | cons a t ih =>
    by_cases h : p a
    · simp [List.find?_cons, h]
    · simp only [List.cons_append, List.find?_cons, h]
      simpa [h] using ih

/-- Filtering away the pairs keyed n does not change the lookup of a
different key c. -/
theorem find?_filter_ne (r : Row) (n c : String) (h : n ≠ c) :
    (r.filter (fun p => !(p.1 == n))).find? (fun p => p.1 == c) =
      r.find? (fun p => p.1 == c) := by
  induction r with
  | nil => rfl
  | cons p t ih =>
    by_cases hp : p.1 = n
    · have hpn : (p.1 == n) = true := by simp [hp]
      have hpc : (p.1 == c) = false := by
        simp only [beq_eq_false_iff_ne]
        intro hek
        exact h (by rw [← hp, hek])
      simp [List.filter_cons, List.find?_cons, hpn, hpc, ih]
    · have hpn : (p.1 == n) = false := by simp [hp]
      by_cases hpc : p.1 = c
      · have hpc2 : (p.1 == c) = true := by simp [hpc]
        simp [List.filter_cons, List.find?_cons, hpn, hpc2]
      · have hpc2 : (p.1 == c) = false := by simp [hpc]
        simp [List.filter_cons, List.find?_cons, hpn, hpc2, ih]

/-- Writing a cell at column n leaves every other column of the row
unchanged. -/
theorem cellOf_setCell_ne (r : Row) (n c : String) (v : Option Val)
    (h : n ≠ c) : cellOf (setCell r n v) c = cellOf r c := by
  cases v with
  | some v =>
    simp only [setCell, cellOf, find?_append, find?_filter_ne r n c h]
    cases hf : r.find? (fun p => p.1 == c) with
    | some x => rfl
    | none =>
      have : ((n, v).1 == c) = false := by simp [h]
      simp [List.find?_cons, this]
  | none => simp only [setCell, cellOf, find?_filter_ne r n c h]

/-- Mapping a function of the second component over a zip whose first list
is at least as long recovers the plain map. -/
theorem zip_map_snd {α β γ : Type} (f : β → γ) :
    ∀ (l1 : List α) (l2 : List β), l2.length ≤ l1.length →
      (l1.zip l2).map (fun p => f p.2) = l2.map f := by
  intro l1
  induction l1 with
  | nil =>
    intro l2 h
    cases l2 with
    | nil => rfl
    | cons b t => simp at h
  | cons a t1 ih =>
    intro l2 h
    cases l2 with
    | nil => rfl
    | cons b t2 =>
      simp only [List.zip_cons_cons, List.map_cons]
      rw [ih t2 (by simpa using h)]

/-- The column list of a column assignment. -/
theorem setColumn_cols (t : Table) (n : String) (vals : List (Option Val)) :
    (setColumn t n vals).cols =
      if t.cols.contains n then t.cols else t.cols ++ [n] := rfl

/-- A column assignment at n leaves the values of every other column
unchanged. -/
theorem setColumn_column_ne (t : Table) (n c : String)
    (vals : List (Option Val)) (h : n ≠ c) :
    (setColumn t n vals).column c = t.column c := by
  simp only [setColumn, Table.column, List.map_map]
  have step1 :
      (((List.range t.rows.length).zip t.rows).map
        (fun p => cellOf (setCell p.2 n ((vals.get? p.1).bind id)) c)) =
      (((List.range t.rows.length).zip t.rows).map (fun p => cellOf p.2 c)) := by
    apply List.map_congr_left
    intro p _
    exact cellOf_setCell_ne p.2 n c _ h
  calc ((List.range t.rows.length).zip t.rows).map
        ((fun r => cellOf r c) ∘ fun p => setCell p.2 n ((vals.get? p.1).bind id))
      = ((List.range t.rows.length).zip t.rows).map
          (fun p => cellOf (setCell p.2 n ((vals.get? p.1).bind id)) c) := rfl
    _ = ((List.range t.rows.length).zip t.rows).map (fun p => cellOf p.2 c) := step1
    _ = t.rows.map (fun r => cellOf r c) := by
        exact zip_map_snd (fun r => cellOf r c) _ t.rows (by simp)

/-- In a pair list with duplicate-free keys, the key determines the
value. -/
theorem keys_nodup_eq {α β : Type} {l : List (α × β)}
    (h : (l.map Prod.fst).Nodup) {a : α} {b c : β}
    (h1 : (a, b) ∈ l) (h2 : (a, c) ∈ l) : b = c := by
  induction l with
  | nil => cases h1
  | cons p t ih =>
    rw [List.map_cons, List.nodup_cons] at h
    rcases List.mem_cons.mp h1 with e1 | m1
    · rcases List.mem_cons.mp h2 with e2 | m2
      · have heq : (a, b) = (a, c) := e1.trans e2.symm
        injection heq with ha hb
      · exfalso
        apply h.1
        rw [← e1]
        simpa using List.mem_map_of_mem Prod.fst m2
    · rcases List.mem_cons.mp h2 with e2 | m2
      · exfalso
        apply h.1
        rw [← e2]
        simpa using List.mem_map_of_mem Prod.fst m1
      · exact ih h.2 m1 m2

/-- Fold invariant for C4: a name that every matching formula fails to
evaluate never enters the column list. -/
theorem eval_fold_not_mem
    (evalFn : String → List (String × Binding) → Option (List (Option Val)))
    (name : String) :
    ∀ (formulas : List (String × String)) (out : Table),
      name ∉ out.cols →
      (∀ p ∈ formulas, p.1 = name →
        validExpr p.2 = false ∨ ∀ env, evalFn p.2 env = none) →
      name ∉ (evalFormulasOnRows evalFn out formulas).cols := by
  intro formulas
  induction formulas with
  | nil =>
    intro out hout _
    exact hout
  | cons nf rest ih =>
    intro out hout hall
    have hrec : evalFormulasOnRows evalFn out (nf :: rest) =
        evalFormulasOnRows evalFn (evalStep evalFn out nf) rest := rfl
    rw [hrec]
    have hrest : ∀ p ∈ rest, p.1 = name →
        validExpr p.2 = false ∨ ∀ env, evalFn p.2 env = none :=
      fun p hp => hall p (List.mem_cons_of_mem nf hp)
    by_cases hv : validExpr nf.2 = true
    · cases he : evalFn nf.2 (localEnv out) with
      | none =>
        have hstep : evalStep evalFn out nf = out := by
          simp [evalStep, hv, he]
        rw [hstep]
        exact ih out hout hrest
      | some vals =>
        by_cases hn : nf.1 = name
        · exfalso
          rcases hall nf (List.mem_cons_self nf rest) hn with hbad | hbad
          · rw [hv] at hbad
            cases hbad
          · rw [hbad (localEnv out)] at he
            cases he
        · have hstep : evalStep evalFn out nf = setColumn out nf.1 vals := by
            simp [evalStep, hv, he]
          rw [hstep]
          apply ih _ _ hrest
          rw [setColumn_cols]
          by_cases hc : out.cols.contains nf.1 = true
          · rw [if_pos hc]
            exact hout
          · rw [if_neg hc]
            intro hmem2
            rcases List.mem_append.mp hmem2 with h | h
            · exact hout h
            · exact hn (List.mem_singleton.mp h).symm
    · have hstep : evalStep evalFn out nf = out := by
        simp [evalStep, hv]
      rw [hstep]
      exact ih out hout hrest

/-- Fold invariant for C10: the original columns and their values are
preserved, and only formula-named columns are appended. -/
theorem eval_fold_frame
    (evalFn : String → List (String × Binding) → Option (List (Option Val)))
    (base : List String) :
    ∀ (formulas : List (String × String)) (out : Table)
      (extra : List String),
      out.cols = base ++ extra →
      (∀ e ∈ extra, e ∉ base) →
      (∀ p ∈ formulas, p.1 ∉ base) →
      ∃ extra2,
        (evalFormulasOnRows evalFn out formulas).cols = base ++ extra2 ∧
        (∀ e ∈ extra2, e ∈ extra ∨ e ∈ formulas.map Prod.fst) ∧
        (∀ c ∈ base, (evalFormulasOnRows evalFn out formulas).column c =
          out.column c) := by
  intro formulas
  induction formulas with
  | nil =>
    intro out extra hcols hex _
    exact ⟨extra, hcols, fun e he => Or.inl he, fun c _ => rfl⟩
  | cons nf rest ih =>
    intro out extra hcols hex hform
    have hrec : evalFormulasOnRows evalFn out (nf :: rest) =
        evalFormulasOnRows evalFn (evalStep evalFn out nf) rest := rfl
    have hname : nf.1 ∉ base := hform nf (List.mem_cons_self nf rest)
    have hrest : ∀ p ∈ rest, p.1 ∉ base :=
      fun p hp => hform p (List.mem_cons_of_mem nf hp)
    have hne : ∀ c ∈ base, nf.1 ≠ c := fun c hc he => hname (he ▸ hc)
    by_cases hv : validExpr nf.2 = true
    · cases he : evalFn nf.2 (localEnv out) with
      | none =>
        have hstep : evalStep evalFn out nf = out := by
          simp [evalStep, hv, he]
        rw [hrec, hstep]
        obtain ⟨extra2, h1, h2, h3⟩ := ih out extra hcols hex hrest
        exact ⟨extra2, h1,
          fun e hee => (h2 e hee).imp id (List.mem_cons_of_mem _), h3⟩
      | some vals =>
        have hstep : evalStep evalFn out nf = setColumn out nf.1 vals := by
          simp [evalStep, hv, he]
        rw [hrec, hstep]
        by_cases hc : out.cols.contains nf.1
        · have hcols2 : (setColumn out nf.1 vals).cols = base ++ extra := by
            rw [setColumn_cols, if_pos hc, hcols]
          obtain ⟨extra2, h1, h2, h3⟩ :=
            ih (setColumn out nf.1 vals) extra hcols2 hex hrest
          refine ⟨extra2, h1,
            fun e hee => (h2 e hee).imp id (List.mem_cons_of_mem _), ?_⟩
          intro c hcb
          rw [h3 c hcb, setColumn_column_ne out nf.1 c vals (hne c hcb)]
        · have hcols2 : (setColumn out nf.1 vals).cols =
              base ++ (extra ++ [nf.1]) := by
            rw [setColumn_cols, if_neg hc, hcols, List.append_assoc]
          have hex2 : ∀ e ∈ extra ++ [nf.1], e ∉ base := by
            intro e hee
            rcases List.mem_append.mp hee with h | h
            · exact hex e h
            · rw [List.mem_singleton.mp h]
              exact hname
          obtain ⟨extra2, h1, h2, h3⟩ :=
            ih (setColumn out nf.1 vals) (extra ++ [nf.1]) hcols2 hex2 hrest
          refine ⟨extra2, h1, ?_, ?_⟩
          · intro e hee
            rcases h2 e hee with h | h
            · rcases List.mem_append.mp h with h | h
              · exact Or.inl h
              · refine Or.inr ?_
                rw [List.mem_singleton.mp h]
                exact List.mem_map_of_mem Prod.fst (List.mem_cons_self nf rest)
            · exact Or.inr (List.mem_cons_of_mem _ h)
          · intro c hcb
            rw [h3 c hcb, setColumn_column_ne out nf.1 c vals (hne c hcb)]
    · have hstep : evalStep evalFn out nf = out := by
        simp [evalStep, hv]
      rw [hrec, hstep]
      obtain ⟨extra2, h1, h2, h3⟩ := ih out extra hcols hex hrest
      exact ⟨extra2, h1,
        fun e hee => (h2 e hee).imp id (List.mem_cons_of_mem _), h3⟩

/-! C4: unsafe or failing formulas are skipped silently (claim confirmed). -/

/-- C4: eval_formulas_on_rows never surfaces an error (it is a total
function of its inputs); a formula whose expression contains a character
outside the allowed alphanumeric / whitespace / underscore / + - * / set
produces no column named after it, and a validated formula whose
evaluation fails (the evaluator returns none on every environment, the
model of a per-row exception) also produces no column. -/
theorem eval_formulas_skip_invalid
    (evalFn : String → List (String × Binding) → Option (List (Option Val)))
    (df : Table) (formulas : List (String × String)) (name expr : String)
    (hnodup : (formulas.map Prod.fst).Nodup)
    (hmem : (name, expr) ∈ formulas)
    (hnew : name ∉ df.cols) :
    (validExpr expr = false →
      name ∉ (evalFormulasOnRows evalFn df formulas).cols) ∧
    ((∀ env, evalFn expr env = none) →
      name ∉ (evalFormulasOnRows evalFn df formulas).cols) := by
  constructor
  · intro hbad
    apply eval_fold_not_mem evalFn name formulas df hnew
    intro p hp hpname
    left
    have : p.2 = expr := by
      have hpe : (name, p.2) ∈ formulas := by
        have : p = (name, p.2) := by
          rw [← hpname]
        rw [← this]
        exact hp
      exact keys_nodup_eq hnodup hpe hmem
    rw [this]
    exact hbad
  · intro hbad
    apply eval_fold_not_mem evalFn name formulas df hnew
    intro p hp hpname
    right
    have : p.2 = expr := by
      have hpe : (name, p.2) ∈ formulas := by
        have : p = (name, p.2) := by
          rw [← hpname]
        rw [← this]
        exact hp
      exact keys_nodup_eq hnodup hpe hmem
    rw [this]
    exact hbad

/-- C4 witness: the expression "AMOR; import os" contains a semicolon,
fails validation, and produces no column on a concrete one-row table. -/
theorem eval_formulas_skip_invalid_witness :
    "X" ∉ (evalFormulasOnRows (fun _ _ => none)
      ⟨["AMOR"], [[("AMOR", Val.str "100")]]⟩
      [("X", "AMOR; import os")]).cols :=
  (eval_formulas_skip_invalid (fun _ _ => none)
      ⟨["AMOR"], [[("AMOR", Val.str "100")]]⟩
      [("X", "AMOR; import os")] "X" "AMOR; import os"
      (by decide) (by decide) (by decide)).1 (by decide)

/-! C10: the evaluator only appends formula columns (claim confirmed).
The model is pure, so the input table itself is trivially unmutated; the
theorem states the frame property on the returned table. -/

/-- C10: when the formula names avoid the existing column names, the
output column list is the input column list followed by a suffix of
formula names only, and every input column keeps exactly its input
values, in order. -/
theorem eval_formulas_frame_effect
    (evalFn : String → List (String × Binding) → Option (List (Option Val)))
    (df : Table) (formulas : List (String × String))
    (hdisj : ∀ p ∈ formulas, p.1 ∉ df.cols) :
    (∃ extra, (evalFormulasOnRows evalFn df formulas).cols = df.cols ++ extra ∧
      ∀ e ∈ extra, e ∈ formulas.map Prod.fst) ∧
    (∀ c ∈ df.cols,
      (evalFormulasOnRows evalFn df formulas).column c = df.column c) := by
  obtain ⟨extra2, h1, h2, h3⟩ :=
    eval_fold_frame evalFn df.cols formulas df [] (by simp)
      (by intro e he; cases he) hdisj
  refine ⟨⟨extra2, h1, ?_⟩, h3⟩
  intro e he
  rcases h2 e he with h | h
  · cases h
  · exact h

/-- C10 witness: on a concrete table and formula set the original AMOR
column is untouched while the formula column is appended. -/
theorem eval_formulas_frame_effect_witness :
    (evalFormulasOnRows (fun _ _ => some [some (Val.num 2)])
      ⟨["AMOR"], [[("AMOR", Val.str "100")]]⟩
      [("X", "AMOR + DIS")]).column "AMOR" =
    (⟨["AMOR"], [[("AMOR", Val.str "100")]]⟩ : Table).column "AMOR" :=
  (eval_formulas_frame_effect (fun _ _ => some [some (Val.num 2)])
      ⟨["AMOR"], [[("AMOR", Val.str "100")]]⟩
      [("X", "AMOR + DIS")] (by decide)).2 "AMOR" (by decide)

/-! Helper lemmas for the Mapper claims. -/

/-- Membership is preserved by first-occurrence deduplication. -/
theorem firstDedup_mem {x : String} : ∀ {l : List String},
    x ∈ firstDedup l ↔ x ∈ l := by
  intro l
  induction l with
  | nil => simp [firstDedup]
  | cons h t ih =>
    simp only [firstDedup, List.mem_cons]
    constructor
    · rintro (rfl | hm)
      · exact Or.inl rfl
      · exact Or.inr (ih.mp (List.mem_of_mem_filter hm))
    · rintro (rfl | hm)
      · exact Or.inl rfl
      · by_cases hx : x = h
        · exact Or.inl hx
        · refine Or.inr (List.mem_filter.mpr ⟨ih.mpr hm, ?_⟩)
          simp [hx]

/-- The dict value lookup: when the headers decompose around the last
header h whose normalized form is c, lookupLast returns h. -/
theorem lookupLast_eq_last (pre post : List String) (h : String) (c : String)
    (hnorm : normStr h = c) (hlast : ∀ h2 ∈ post, normStr h2 ≠ c) :
    lookupLast (pre ++ h :: post) c = some h := by
  unfold lookupLast
  have hrev : (pre ++ h :: post).reverse = post.reverse ++ h :: pre.reverse := by
    simp
  rw [hrev, find?_append]
  have hnone : post.reverse.find? (fun x => normStr x == c) = none := by
    rw [List.find?_eq_none]
    intro x hx
    simp only [beq_iff_eq]
    exact hlast x (List.mem_reverse.mp hx)
  rw [hnone]
  simp only [List.find?_cons]
  have : (normStr h == c) = true := by simp [hnorm]
  rw [this]

/-! C3: collision handling in the normalized-header lookup (claim
corrected).  The dict comprehension in suggest_mapping assigns later
headers over earlier ones, so on a collision of normalized keys the
LAST-seen header wins, not the first-seen one as the claim states. -/

/-- C3 counterexample: the headers PLANT! and plant normalize to the same
key; the canonical synonym plant matches it, and the suggested mapping for
is_yeri_kodu is the later header plant, not the earliest one PLANT!. -/
theorem suggest_mapping_first_seen_false :
    (suggestMapping (fun _ _ => false) DEFAULT_SCHEMA ["PLANT!", "plant"]).head? =
      some ("is_yeri_kodu", some "plant") ∧
    normStr "PLANT!" = normStr "plant" ∧ "PLANT!" ≠ "plant" := by
  refine ⟨by decide, by decide, by decide⟩

/-- C3 (amended): the observed headers are normalized once into a lookup
in which, for distinct headers with the same normalized key, the
LAST-seen header wins: whenever a canonical field candidate matches a
normalized key exactly, the mapping assigns the latest header in the
input sequence having that normalized form. -/
theorem suggest_mapping_last_seen
    (fuzzy : String → List String → Bool) (canonical c h : String)
    (syns pre post : List String)
    (hfind : ((canonical :: syns).map normStr).find?
        (fun cn => (firstDedup ((pre ++ h :: post).map normStr)).contains cn) =
      some c)
    (hnorm : normStr h = c)
    (hlast : ∀ h2 ∈ post, normStr h2 ≠ c) :
    suggestField fuzzy (pre ++ h :: post) canonical syns = some h := by
  unfold suggestField
  simp only
  rw [hfind]
  exact lookupLast_eq_last pre post h c hnorm hlast

/-- C3 witness: the amended rule at the concrete collision input. -/
theorem suggest_mapping_last_seen_witness :
    suggestField (fun _ _ => false) (["PLANT!"] ++ "plant" :: [])
      "is_yeri_kodu"
      ["is yeri", "iş yeri", "plant", "site", "plant code", "işyeri", "isyeri"] =
    some "plant" :=
  suggest_mapping_last_seen (fun _ _ => false) "is_yeri_kodu" "plant" "plant"
    ["is yeri", "iş yeri", "plant", "site", "plant code", "işyeri", "isyeri"]
    ["PLANT!"] [] (by decide) (by decide) (by decide)

/-! C7: exact-match precedence over the fuzzy pass (claim confirmed). -/

/-- C7: when some candidate (the canonical key or a synonym) equals an
observed header after normalization, the field maps to the dict entry of
the first such candidate, and the fuzzy close-match pass is never
consulted: the result is identical for every fuzzy predicate. -/
theorem exact_match_precedence
    (f g : String → List String → Bool) (headers : List String)
    (canonical : String) (syns : List String)
    (hhit : ∃ cand ∈ canonical :: syns, ∃ h ∈ headers,
      normStr h = normStr cand) :
    suggestField f headers canonical syns = suggestField g headers canonical syns ∧
    ∀ c, ((canonical :: syns).map normStr).find?
        (fun cn => (firstDedup (headers.map normStr)).contains cn) = some c →
      suggestField f headers canonical syns = lookupLast headers c := by
  have hsome : (((canonical :: syns).map normStr).find?
      (fun cn => (firstDedup (headers.map normStr)).contains cn)).isSome := by
    rw [List.find?_isSome]
    obtain ⟨cand, hcand, hh, hhm, hn⟩ := hhit
    refine ⟨normStr cand, List.mem_map_of_mem normStr hcand, ?_⟩
    have : normStr cand ∈ firstDedup (headers.map normStr) := by
      rw [firstDedup_mem]
      rw [← hn]
      exact List.mem_map_of_mem normStr hhm
    simpa using this
  obtain ⟨c, hc⟩ := Option.isSome_iff_exists.mp hsome
  constructor
  · unfold suggestField
    simp only
    rw [hc]
  · intro c2 hc2
    unfold suggestField
    simp only
    rw [hc2]

/-- C7 witness: with the synonym plant code matching the header
Plant Code exactly, an always-hitting fuzzy predicate and a never-hitting
one produce the same mapping. -/
theorem exact_match_precedence_witness :
    suggestField (fun _ _ => true) ["Plant Code", "XYZ"] "is_yeri_kodu"
      ["is yeri", "iş yeri", "plant", "site", "plant code", "işyeri", "isyeri"] =
    suggestField (fun _ _ => false) ["Plant Code", "XYZ"] "is_yeri_kodu"
      ["is yeri", "iş yeri", "plant", "site", "plant code", "işyeri", "isyeri"] :=
  (exact_match_precedence (fun _ _ => true) (fun _ _ => false)
    ["Plant Code", "XYZ"] "is_yeri_kodu"
    ["is yeri", "iş yeri", "plant", "site", "plant code", "işyeri", "isyeri"]
    ⟨"plant code", by decide, "Plant Code", by decide, by decide⟩).1

/-! Helper lemmas for the majority-vote autofill. -/

/-- Folding the most-frequent scan from a some accumulator stays some. -/
theorem foldl_mcStep_some (l : List String) :
    ∀ (ws : List String) (p : String × Nat),
      ∃ q, ws.foldl (mcStep l) (some p) = some q := by
  intro ws
  induction ws with
  | nil => exact fun p => ⟨p, rfl⟩
  | cons w rest ih =>
    intro p
    rw [List.foldl_cons]
    by_cases hgt : l.count w > p.2
    · have : mcStep l (some p) w = some (w, l.count w) := by
        simp only [mcStep]
        rw [if_pos hgt]
      rw [this]
      exact ih _
    · have : mcStep l (some p) w = some p := by
        simp only [mcStep]
        rw [if_neg hgt]
      rw [this]
      exact ih _

/-- Invariant of the most-frequent scan: the final pair records the exact
count of its value, dominates every scanned value, and dominates the
starting accumulator. -/
theorem mc_aux (l : List String) :
    ∀ (ws : List String) (acc : Option (String × Nat)),
      (∀ p, acc = some p → p.2 = l.count p.1) →
      ∀ q, ws.foldl (mcStep l) acc = some q →
        q.2 = l.count q.1 ∧ (∀ w ∈ ws, l.count w ≤ q.2) ∧
        (∀ p, acc = some p → p.2 ≤ q.2) := by
  intro ws
  induction ws with
  | nil =>
    intro acc hacc q hq
    simp only [List.foldl_nil] at hq
    refine ⟨hacc q hq, by simp, ?_⟩
    intro p hp
    rw [hp] at hq
    cases hq
    exact Nat.le_refl _
  | cons w rest ih =>
    intro acc hacc q hq
    rw [List.foldl_cons] at hq
    have hnew : ∀ p, mcStep l acc w = some p → p.2 = l.count p.1 := by
      intro p hp
      cases acc with
      | none =>
        cases hp
        rfl
      | some p0 =>
        by_cases hgt : l.count w > p0.2
        · simp only [mcStep] at hp
          rw [if_pos hgt] at hp
          cases hp
          rfl
        · simp only [mcStep] at hp
          rw [if_neg hgt] at hp
          cases hp
          exact hacc _ rfl
    obtain ⟨hq1, hq2, hq3⟩ := ih (mcStep l acc w) hnew q hq
    refine ⟨hq1, ?_, ?_⟩
    · intro x hx
      rcases List.mem_cons.mp hx with rfl | hxr
      · cases hc : acc with
        | none =>
          have := hq3 (x, l.count x) (by rw [hc]; rfl)
          simpa using this
        | some p0 =>
          by_cases hgt : l.count x > p0.2
          · have := hq3 (x, l.count x)
              (by rw [hc]; simp only [mcStep]; rw [if_pos hgt])
            simpa using this
          · have h1 := hq3 p0 (by rw [hc]; simp only [mcStep]; rw [if_neg hgt])
            exact Nat.le_trans (Nat.le_of_not_lt hgt) h1
      · exact hq2 x hxr
    · intro p hp
      by_cases hgt : l.count w > p.2
      · have := hq3 (w, l.count w)
          (by rw [hp]; simp only [mcStep]; rw [if_pos hgt])
        exact Nat.le_trans (Nat.le_of_lt hgt) (by simpa using this)
      · exact hq3 p (by rw [hp]; simp only [mcStep]; rw [if_neg hgt])

/-- On a non-empty list, the most-frequent scan returns a value with its
exact count, and no value has a larger count. -/
theorem mostCommon_spec (l : List String) (hne : l ≠ []) :
    ∃ q, mostCommon l = some q ∧ q.2 = l.count q.1 ∧
      ∀ w, l.count w ≤ q.2 := by
  obtain ⟨a, t, rfl⟩ := List.exists_cons_of_ne_nil hne
  have hdd : firstDedup (a :: t) =
      a :: (firstDedup t).filter (fun x => !(x == a)) := rfl
  obtain ⟨q, hq⟩ := foldl_mcStep_some (a :: t)
    ((firstDedup t).filter (fun x => !(x == a))) (a, (a :: t).count a)
  have hmc : mostCommon (a :: t) = some q := by
    unfold mostCommon
    rw [hdd, List.foldl_cons]
    have hstep : mcStep (a :: t) none a = some (a, (a :: t).count a) := rfl
    rw [hstep, hq]
  have hfold : (firstDedup (a :: t)).foldl (mcStep (a :: t)) none = some q := by
    unfold mostCommon at hmc
    exact hmc
  obtain ⟨h1, h2, h3⟩ :=
    mc_aux (a :: t) (firstDedup (a :: t)) none (by intro p hp; cases hp) q hfold
  refine ⟨q, hmc, h1, ?_⟩
  intro w
  by_cases hw : w ∈ a :: t
  · exact h2 w (firstDedup_mem.mpr hw)
  · rw [List.count_eq_zero_of_not_mem hw]
    exact Nat.zero_le _

/-- First-occurrence deduplication keeps the head. -/
theorem firstDedup_head (l : List String) :
    (firstDedup l).head? = l.head? := by
  cases l <;> rfl

/-! C6: the confidence-gated majority vote (claim confirmed). -/

/-- C6: over the collected non-null trimmed string values of the resolved
column, a single distinct value is accepted; with several distinct values
an accepted value has at least a 90 percent share and no other value is
more frequent (a minority value is never chosen), and when every value is
below the 90 percent share nothing is accepted; the 80 percent example is
not autofilled while the 90 percent example is; and
autofill_manual_from_df records exactly the decision for a key whose
column resolves and whose manual value is unset. -/
theorem autofill_majority_vote :
    (∀ (vals valid : List String), valid = validValues vals →
      ((firstDedup valid).length = 1 → autofillDecision vals = valid.head?) ∧
      (2 ≤ (firstDedup valid).length →
        ∀ v, autofillDecision vals = some v →
          9 * valid.length ≤ 10 * valid.count v ∧
          ∀ w, valid.count w ≤ valid.count v) ∧
      (2 ≤ (firstDedup valid).length →
        (∀ v, 10 * valid.count v < 9 * valid.length) →
        autofillDecision vals = none)) ∧
    autofillDecision ["A", "A", "A", "A", "B"] = none ∧
    autofillDecision ["A", "A", "A", "A", "A", "A", "A", "A", "A", "B"] =
      some "A" ∧
    (∀ (manual : List (String × String)) (df : Table) (key col : String),
      df.isEmpty = false → manualGet manual key = "" →
      findColByCandidates df.cols (engineCands key) = some col →
      autofillManualFromDf manual df [key] false =
        match autofillDecision (df.rows.map (fun r => pyStr (cellOf r col))) with
        | some v => (manualSet manual key v, [key])
        | none => (manual, [])) := by
  refine ⟨?_, by decide, by decide, ?_⟩
  · intro vals valid hv
    have hne1 : (firstDedup valid).length = 1 → valid.isEmpty = false := by
      intro h1
      cases hval : valid with
      | nil =>
        rw [hval] at h1
        cases h1
      | cons a t => rfl
    have hne2 : 2 ≤ (firstDedup valid).length → valid.isEmpty = false := by
      intro h2
      cases hval : valid with
      | nil =>
        rw [hval] at h2
        cases h2
      | cons a t => rfl
    refine ⟨?_, ?_, ?_⟩
    · intro h1
      unfold autofillDecision
      rw [← hv, hne1 h1, if_neg (by simp), if_pos h1, firstDedup_head]
    · intro h2 v hsome
      have hvne : valid ≠ [] := by
        intro hnil
        rw [hnil] at h2
        cases h2
      obtain ⟨q, hmc, hcnt, hdom⟩ := mostCommon_spec valid hvne
      have hlen1 : ¬((firstDedup valid).length = 1) := by
        intro h1
        rw [h1] at h2
        exact absurd h2 (by decide)
      unfold autofillDecision at hsome
      rw [← hv, hne2 h2, if_neg (by simp), if_neg hlen1, hmc] at hsome
      dsimp only at hsome
      by_cases hth : 10 * q.2 < 9 * valid.length
      · rw [if_pos hth] at hsome
        cases hsome
      · rw [if_neg hth] at hsome
        cases hsome
        constructor
        · rw [← hcnt]
          exact Nat.le_of_not_lt hth
        · intro w
          rw [← hcnt]
          exact hdom w
    · intro h2 hall
      have hvne : valid ≠ [] := by
        intro hnil
        rw [hnil] at h2
        cases h2
      obtain ⟨q, hmc, hcnt, hdom⟩ := mostCommon_spec valid hvne
      have hlen1 : ¬((firstDedup valid).length = 1) := by
        intro h1
        rw [h1] at h2
        exact absurd h2 (by decide)
      unfold autofillDecision
      rw [← hv, hne2 h2, if_neg (by simp), if_neg hlen1, hmc]
      dsimp only
      rw [if_pos (by rw [hcnt]; exact hall q.1)]
  · intro manual df key col hemp hget hcol
    unfold autofillManualFromDf
    rw [hemp]
    simp only [Bool.false_eq_true, if_false, List.foldl_cons, List.foldl_nil,
      hget, hcol]
    cases hd : autofillDecision (df.rows.map (fun r => pyStr (cellOf r col))) with
    | none => simp [hd]
    | some v => simp [hd]

/-- C6 witness: a two-row table with a single distinct value autofills
is_yeri_kodu through autofill_manual_from_df. -/
theorem autofill_majority_vote_witness :
    autofillManualFromDf []
      ⟨["İş Yeri Kodu"],
        [[("İş Yeri Kodu", Val.str "A")], [("İş Yeri Kodu", Val.str "A")]]⟩
      ["is_yeri_kodu"] false =
    ([("is_yeri_kodu", "A")], ["is_yeri_kodu"]) := by
  have h := autofill_majority_vote.2.2.2 []
    ⟨["İş Yeri Kodu"],
      [[("İş Yeri Kodu", Val.str "A")], [("İş Yeri Kodu", Val.str "A")]]⟩
    "is_yeri_kodu" "İş Yeri Kodu" (by decide) (by decide) (by decide)
  rw [h]
  decide

/-! C8: code filtering with equality-first, containment-fallback masks
(claim confirmed). -/

/-- The source mask agrees with the specification mask row by row. -/
theorem keyMask_eq_spec (rows : List Row) (col code : String) (r : Row) :
    (if code == "" then true else keyMask rows col code r) =
      filterSpecPass rows col code r := by
  unfold filterSpecPass
  by_cases hcode : code = ""
  · simp [hcode]
  · have hcode2 : (code == "") = false := by simp [hcode]
    rw [hcode2, if_neg hcode]
    by_cases hex : ∃ r0 ∈ rows, pyLower (pyStrip (pyStr (cellOf r0 col))) = pyLower code
    · rw [dif_pos hex]
      unfold keyMask
      have hany : (rows.any fun r2 =>
          pyLower (pyStrip (pyStr (cellOf r2 col))) == pyLower code) = true := by
        rw [List.any_eq_true]
        obtain ⟨r0, hm, he⟩ := hex
        exact ⟨r0, hm, by simp [he]⟩
      rw [if_pos hany]
      by_cases he : pyLower (pyStrip (pyStr (cellOf r col))) = pyLower code
      · simp [he]
      · simp [he]
    · rw [dif_neg hex]
      unfold keyMask
      have hany : (rows.any fun r2 =>
          pyLower (pyStrip (pyStr (cellOf r2 col))) == pyLower code) = false := by
        rw [← Bool.not_eq_true, List.any_eq_true]
        intro ⟨r0, hm, he⟩
        exact hex ⟨r0, hm, by simpa using he⟩
      rw [hany]
      simp

/-- C8: on a non-empty table with both key columns resolved, the filtered
rows are exactly the rows passing both per-key masks (equality-preferred,
substring fallback, case-insensitive, empty code skipped), combined with
logical AND; the columns are unchanged. -/
theorem filter_by_codes_masks (df : Table) (plantCode cctrCode : String)
    (found : FoundColumns) (pc cc : String)
    (hemp : df.isEmpty = false)
    (hp : found.plant_col = some pc) (hc : found.cctr_col = some cc) :
    (filterByCodes df plantCode cctrCode found).rows =
      df.rows.filter (fun r =>
        filterSpecPass df.rows pc plantCode r &&
        filterSpecPass df.rows cc cctrCode r) ∧
    (filterByCodes df plantCode cctrCode found).cols = df.cols := by
  unfold filterByCodes
  rw [hemp]
  simp only [Bool.false_eq_true, if_false, hp, hc]
  constructor
  · apply List.filter_congr
    intro r _
    rw [← keyMask_eq_spec df.rows pc plantCode r,
      ← keyMask_eq_spec df.rows cc cctrCode r]
  · trivial

/-- C8 witness: no row equals P1 but one contains it, so the substring
fallback keeps that row. -/
theorem filter_by_codes_masks_witness :
    (filterByCodes ⟨["plant"], [[("plant", Val.str "P1-EXT")]]⟩ "P1" ""
      ⟨some "plant", some "plant", []⟩).rows =
      [[("plant", Val.str "P1-EXT")]] := by
  have h := (filter_by_codes_masks ⟨["plant"], [[("plant", Val.str "P1-EXT")]]⟩
    "P1" "" ⟨some "plant", some "plant", []⟩ "plant" "plant"
    (by decide) rfl rfl).1
  rw [h]
  decide

/-! Helper lemmas for the import claims. -/

/-- A filter and its complement split the length of a list. -/
theorem filter_not_length {α : Type} (l : List α) (p : α → Bool) :
    (l.filter p).length + (l.filter (fun a => !(p a))).length = l.length := by
  induction l with
  | nil => rfl
  | cons a t ih =>
    by_cases h : p a = true
    · simp [List.filter_cons, h]
      omega
    · have hf : p a = false := by simpa using h
      simp [List.filter_cons, hf]
      omega

/-- Rows removed by a filter, counted: length difference equals the count
of the complementary predicate. -/
theorem length_sub_filter {α : Type} (l : List α) (p : α → Bool) :
    l.length - (l.filter p).length = l.countP (fun a => !(p a)) := by
  rw [List.countP_eq_length_filter]
  have h := filter_not_length l p
  omega

/-- Membership of a key pair in the staged pair list, as the claim words
it: some staged row carries the same trimmed case-folded values. -/
theorem pairs_contains (staged : List Row) (bi bm : String) (x y : String) :
    ((staged.map (fun r2 => (keyAt r2 bi, keyAt r2 bm))).contains (x, y)) =
      decide (∃ r2 ∈ staged, keyAt r2 bi = x ∧ keyAt r2 bm = y) := by
  by_cases h : ∃ r2 ∈ staged, keyAt r2 bi = x ∧ keyAt r2 bm = y
  · rw [decide_eq_true h]
    obtain ⟨r2, hm, hx, hy⟩ := h
    have : (x, y) ∈ staged.map (fun r2 => (keyAt r2 bi, keyAt r2 bm)) := by
      rw [← hx, ← hy]
      exact List.mem_map_of_mem _ hm
    simpa using this
  · rw [decide_eq_false h]
    have : (x, y) ∉ staged.map (fun r2 => (keyAt r2 bi, keyAt r2 bm)) := by
      intro hm
      obtain ⟨r2, hr2, heq⟩ := List.mem_map.mp hm
      injection heq with hx hy
      exact h ⟨r2, hr2, hx, hy⟩
    simpa using this

/-- Unfolding of import_staged_into_system on the fully resolved branch:
both buffers non-empty and all four key columns found. -/
theorem import_resolved (st : EngineState) (staged src : Table)
    (ti tm bi bm : String)
    (h1 : st.staged_df = some staged) (h2 : staged.isEmpty = false)
    (h3 : st.src_df = some src) (h4 : src.isEmpty = false)
    (hti : findColByCandidates src.cols (engineCands "is_yeri_kodu") = some ti)
    (htm : findColByCandidates src.cols (engineCands "masraf_yeri_kodu") = some tm)
    (hbi : findColByCandidates staged.cols (engineCands "is_yeri_kodu") = some bi)
    (hbm : findColByCandidates staged.cols (engineCands "masraf_yeri_kodu") = some bm) :
    importStagedIntoSystem st true =
      ({ st with src_df := some (concatOuter
          ⟨src.cols, src.rows.filter (fun r =>
            !((staged.rows.map (fun r2 => (keyAt r2 bi, keyAt r2 bm))).contains
              (keyAt r ti, keyAt r tm)))⟩ staged) },
       src.rows.length - (src.rows.filter (fun r =>
         !((staged.rows.map (fun r2 => (keyAt r2 bi, keyAt r2 bm))).contains
           (keyAt r ti, keyAt r tm)))).length,
       staged.rows.length) := by
  unfold importStagedIntoSystem
  rw [h1]
  dsimp only
  rw [h2, h3]
  simp only [Bool.false_eq_true, if_false]
  rw [h4]
  simp only [Bool.false_eq_true, if_false]
  rw [hti, htm, hbi, hbm]

/-! C1: the import contract of Engine.import_staged_into_system (claim
confirmed). -/

/-- C1: with an empty or absent staged buffer the import changes nothing
and returns (0, 0); with a non-empty staged buffer and an empty or absent
system buffer the staged table becomes the system table wholesale with
result (0, staged row count); with both buffers non-empty and all four
key columns resolvable, exactly the system rows whose trimmed case-folded
key pair occurs among the staged pairs are removed, all staged rows are
appended, and the result counts the removed rows and the staged rows;
with any key column unresolvable nothing is removed but all staged rows
are still appended. -/
theorem import_staged_into_system_spec (st : EngineState) :
    (optEmpty st.staged_df = true →
      importStagedIntoSystem st true = (st, 0, 0)) ∧
    (∀ staged, st.staged_df = some staged → staged.isEmpty = false →
      optEmpty st.src_df = true →
      importStagedIntoSystem st true =
        ({ st with src_df := some staged }, 0, staged.rows.length)) ∧
    (∀ staged src ti tm bi bm,
      st.staged_df = some staged → staged.isEmpty = false →
      st.src_df = some src → src.isEmpty = false →
      findColByCandidates src.cols (engineCands "is_yeri_kodu") = some ti →
      findColByCandidates src.cols (engineCands "masraf_yeri_kodu") = some tm →
      findColByCandidates staged.cols (engineCands "is_yeri_kodu") = some bi →
      findColByCandidates staged.cols (engineCands "masraf_yeri_kodu") = some bm →
      importStagedIntoSystem st true =
        ({ st with src_df := some (Table.mk
            (src.cols ++ staged.cols.filter (fun c => !(src.cols.contains c)))
            (src.rows.filter (fun r => !(decide (∃ r2 ∈ staged.rows,
               keyAt r2 bi = keyAt r ti ∧ keyAt r2 bm = keyAt r tm))) ++
             staged.rows)) },
         src.rows.countP (fun r => decide (∃ r2 ∈ staged.rows,
           keyAt r2 bi = keyAt r ti ∧ keyAt r2 bm = keyAt r tm)),
         staged.rows.length)) ∧
    (∀ staged src,
      st.staged_df = some staged → staged.isEmpty = false →
      st.src_df = some src → src.isEmpty = false →
      (findColByCandidates src.cols (engineCands "is_yeri_kodu") = none ∨
       findColByCandidates src.cols (engineCands "masraf_yeri_kodu") = none ∨
       findColByCandidates staged.cols (engineCands "is_yeri_kodu") = none ∨
       findColByCandidates staged.cols (engineCands "masraf_yeri_kodu") = none) →
      importStagedIntoSystem st true =
        ({ st with src_df := some (concatOuter src staged) },
         0, staged.rows.length)) := by
  refine ⟨?_, ?_, ?_, ?_⟩
  · intro h
    unfold importStagedIntoSystem
    cases hs : st.staged_df with
    | none => rfl
    | some t =>
      unfold optEmpty at h
      rw [hs] at h
      dsimp only at h ⊢
      rw [h]
      rfl
  · intro staged h1 h2 h3
    unfold importStagedIntoSystem
    rw [h1]
    dsimp only
    rw [h2]
    simp only [Bool.false_eq_true, if_false]
    unfold optEmpty at h3
    cases hs : st.src_df with
    | none => rfl
    | some src =>
      rw [hs] at h3
      dsimp only at h3 ⊢
      rw [h3]
      rfl
  · intro staged src ti tm bi bm h1 h2 h3 h4 hti htm hbi hbm
    rw [import_resolved st staged src ti tm bi bm h1 h2 h3 h4 hti htm hbi hbm]
    have hkept : src.rows.filter (fun r =>
        !((staged.rows.map (fun r2 => (keyAt r2 bi, keyAt r2 bm))).contains
          (keyAt r ti, keyAt r tm))) =
        src.rows.filter (fun r => !(decide (∃ r2 ∈ staged.rows,
          keyAt r2 bi = keyAt r ti ∧ keyAt r2 bm = keyAt r tm))) := by
      apply List.filter_congr
      intro r _
      rw [pairs_contains]
    have hremoved : src.rows.length - (src.rows.filter (fun r =>
        !((staged.rows.map (fun r2 => (keyAt r2 bi, keyAt r2 bm))).contains
          (keyAt r ti, keyAt r tm)))).length =
        src.rows.countP (fun r => decide (∃ r2 ∈ staged.rows,
          keyAt r2 bi = keyAt r ti ∧ keyAt r2 bm = keyAt r tm)) := by
      rw [length_sub_filter]
      rw [List.countP_eq_length_filter, List.countP_eq_length_filter]
      apply congrArg
      apply List.filter_congr
      intro r _
      rw [pairs_contains, Bool.not_not]
    rw [hremoved, hkept]
    rfl
  · intro staged src h1 h2 h3 h4 hnone
    unfold importStagedIntoSystem
    rw [h1]
    dsimp only
    rw [h2, h3]
    simp only [Bool.false_eq_true, if_false]
    rw [h4]
    simp only [Bool.false_eq_true, if_false]
    rcases hti : findColByCandidates src.cols (engineCands "is_yeri_kodu") with
      _ | ti
    · rfl
    · rcases htm : findColByCandidates src.cols (engineCands "masraf_yeri_kodu")
        with _ | tm
      · rfl
      · rcases hbi : findColByCandidates staged.cols (engineCands "is_yeri_kodu")
          with _ | bi
        · rfl
        · rcases hbm : findColByCandidates staged.cols
            (engineCands "masraf_yeri_kodu") with _ | bm
          · rfl
          · exfalso
            rcases hnone with h | h | h | h
            · rw [hti] at h
              cases h
            · rw [htm] at h
              cases h
            · rw [hbi] at h
              cases h
            · rw [hbm] at h
              cases h

/-- C1 witness: a concrete import in the fully resolved case removes the
matching system row, appends the staged row, and reports (1, 1). -/
theorem import_staged_into_system_spec_witness :
    importStagedIntoSystem
      ⟨some ⟨["plant", "cc", "V"],
         [[("plant", Val.str "P1"), ("cc", Val.str "C1"), ("V", Val.str "1")],
          [("plant", Val.str "P2"), ("cc", Val.str "C2"), ("V", Val.str "2")]]⟩,
       some ⟨["plant", "cc", "V"],
         [[("plant", Val.str "p1 "), ("cc", Val.str "C1"), ("V", Val.str "9")]]⟩,
       []⟩ true =
    (⟨some ⟨["plant", "cc", "V"],
        [[("plant", Val.str "P2"), ("cc", Val.str "C2"), ("V", Val.str "2")],
         [("plant", Val.str "p1 "), ("cc", Val.str "C1"), ("V", Val.str "9")]]⟩,
      some ⟨["plant", "cc", "V"],
        [[("plant", Val.str "p1 "), ("cc", Val.str "C1"), ("V", Val.str "9")]]⟩,
      []⟩, 1, 1) := by
  have h := (import_staged_into_system_spec
    ⟨some ⟨["plant", "cc", "V"],
       [[("plant", Val.str "P1"), ("cc", Val.str "C1"), ("V", Val.str "1")],
        [("plant", Val.str "P2"), ("cc", Val.str "C2"), ("V", Val.str "2")]]⟩,
     some ⟨["plant", "cc", "V"],
       [[("plant", Val.str "p1 "), ("cc", Val.str "C1"), ("V", Val.str "9")]]⟩,
     []⟩).2.2.1
    ⟨["plant", "cc", "V"],
       [[("plant", Val.str "p1 "), ("cc", Val.str "C1"), ("V", Val.str "9")]]⟩
    ⟨["plant", "cc", "V"],
       [[("plant", Val.str "P1"), ("cc", Val.str "C1"), ("V", Val.str "1")],
        [("plant", Val.str "P2"), ("cc", Val.str "C2"), ("V", Val.str "2")]]⟩
    "plant" "cc" "plant" "cc" rfl (by decide) rfl (by decide)
    (by decide) (by decide) (by decide) (by decide)
  rw [h]
  decide

/-! C5: double import versus single import (claim corrected).

The claim asserts idempotence for every system and staged table.  It
fails in two ways: (a) when the key columns are not resolvable, the
second import appends the staged rows again without removing anything;
(b) when the two buffers resolve their key columns to differently named
columns, the outer join leaves nulls in the newly added columns, the
second import re-resolves the key columns on the merged table, and rows
are matched against different columns than in the first import.  It does
hold when the two buffers have the same column list (and hence resolve
the same key columns) and the key columns are resolvable. -/

/-- C5 counterexample: (a) with unresolvable key columns, importing the
same staged table twice duplicates the staged rows, so the final system
table differs from a single import; (b) even with both buffers resolving
plant and cost-center columns, differently named key columns break
idempotence. -/
theorem import_twice_neq_once :
    ((importStagedIntoSystem (importStagedIntoSystem
        ⟨some ⟨["A"], [[("A", Val.str "1")]]⟩,
         some ⟨["A"], [[("A", Val.str "2")]]⟩, []⟩ true).1 true).1).src_df ≠
      ((importStagedIntoSystem
        ⟨some ⟨["A"], [[("A", Val.str "1")]]⟩,
         some ⟨["A"], [[("A", Val.str "2")]]⟩, []⟩ true).1).src_df ∧
    ((importStagedIntoSystem (importStagedIntoSystem
        ⟨some ⟨["plant", "cc"],
           [[("plant", Val.str "P2"), ("cc", Val.str "C2")]]⟩,
         some ⟨["İş Yeri Kodu", "Masraf Yeri Kodu", "X"],
           [[("İş Yeri Kodu", Val.str "P1"), ("Masraf Yeri Kodu", Val.str "C1")],
            [("X", Val.str "z")]]⟩, []⟩ true).1 true).1).src_df ≠
      ((importStagedIntoSystem
        ⟨some ⟨["plant", "cc"],
           [[("plant", Val.str "P2"), ("cc", Val.str "C2")]]⟩,
         some ⟨["İş Yeri Kodu", "Masraf Yeri Kodu", "X"],
           [[("İş Yeri Kodu", Val.str "P1"), ("Masraf Yeri Kodu", Val.str "C1")],
            [("X", Val.str "z")]]⟩, []⟩ true).1).src_df := by
  constructor
  · decide
  · decide

/-- C5 (amended): importing the same staged table twice yields the same
final system table as importing it once, provided both buffers are
non-empty, share the same column list, and the plant and cost-center key
columns resolve on that column list (the second import then removes
exactly the rows the first import added for those keys and re-adds
identical rows). -/
theorem import_twice_eq_once_conditional (st : EngineState)
    (staged src : Table) (ti tm : String)
    (h1 : st.staged_df = some staged) (h2 : staged.isEmpty = false)
    (h3 : st.src_df = some src) (h4 : src.isEmpty = false)
    (hcols : staged.cols = src.cols)
    (hti : findColByCandidates src.cols (engineCands "is_yeri_kodu") = some ti)
    (htm : findColByCandidates src.cols (engineCands "masraf_yeri_kodu") = some tm) :
    (importStagedIntoSystem (importStagedIntoSystem st true).1 true).1.src_df =
      (importStagedIntoSystem st true).1.src_df := by
  have hbi : findColByCandidates staged.cols (engineCands "is_yeri_kodu") =
      some ti := by
    rw [hcols]
    exact hti
  have hbm : findColByCandidates staged.cols (engineCands "masraf_yeri_kodu") =
      some tm := by
    rw [hcols]
    exact htm
  have hfirst := import_resolved st staged src ti tm ti tm h1 h2 h3 h4
    hti htm hbi hbm
  rw [hfirst]
  dsimp only
  set P : Row → Bool := fun r =>
    !((staged.rows.map (fun r2 => (keyAt r2 ti, keyAt r2 tm))).contains
      (keyAt r ti, keyAt r tm)) with hP
  set M : Table := concatOuter ⟨src.cols, src.rows.filter P⟩ staged with hM
  have hMcols : M.cols = src.cols := by
    rw [hM]
    show src.cols ++ staged.cols.filter (fun c => !(src.cols.contains c)) =
      src.cols
    rw [hcols]
    have hnil : src.cols.filter (fun c => !(src.cols.contains c)) = [] := by
      apply List.filter_eq_nil_iff.mpr
      intro c hc
      simp [hc]
    rw [hnil, List.append_nil]
  have hMrows : M.rows = src.rows.filter P ++ staged.rows := rfl
  have hstrows : staged.rows.isEmpty = false := by
    unfold Table.isEmpty at h2
    exact (Bool.or_eq_false_iff.mp h2).1
  have hsrccols : src.cols.isEmpty = false := by
    unfold Table.isEmpty at h4
    exact (Bool.or_eq_false_iff.mp h4).2
  have hMne : M.isEmpty = false := by
    unfold Table.isEmpty
    rw [hMrows, hMcols]
    cases hsr : staged.rows with
    | nil =>
      rw [hsr] at hstrows
      cases hstrows
    | cons a t =>
      simp [hsrccols]
  have hti2 : findColByCandidates M.cols (engineCands "is_yeri_kodu") =
      some ti := by
    rw [hMcols]
    exact hti
  have htm2 : findColByCandidates M.cols (engineCands "masraf_yeri_kodu") =
      some tm := by
    rw [hMcols]
    exact htm
  have hsecond := import_resolved { st with src_df := some M } staged M
    ti tm ti tm (by simpa using h1) h2 rfl hMne hti2 htm2 hbi hbm
  rw [hsecond]
  dsimp only
  have hkept : M.rows.filter P = src.rows.filter P := by
    rw [hMrows, List.filter_append]
    have hA : (src.rows.filter P).filter P = src.rows.filter P :=
      List.filter_eq_self.mpr (fun a ha => List.of_mem_filter ha)
    have hB : staged.rows.filter P = [] := by
      apply List.filter_eq_nil_iff.mpr
      intro r hr
      simp [hP]
      exact ⟨r, hr, rfl, rfl⟩
    rw [hA, hB, List.append_nil]
  have hfinal : concatOuter ⟨M.cols, M.rows.filter P⟩ staged = M := by
    conv_rhs => rw [hM]
    rw [hMcols, hkept]
  rw [hfinal]

/-- C5 witness: two equal-column buffers with resolvable keys; importing
twice equals importing once. -/
theorem import_twice_eq_once_conditional_witness :
    (importStagedIntoSystem (importStagedIntoSystem
        ⟨some ⟨["plant", "cc"],
           [[("plant", Val.str "P1"), ("cc", Val.str "C1")]]⟩,
         some ⟨["plant", "cc"],
           [[("plant", Val.str "P1"), ("cc", Val.str "C1")],
            [("plant", Val.str "P2"), ("cc", Val.str "C2")]]⟩, []⟩ true).1
      true).1.src_df =
    (importStagedIntoSystem
        ⟨some ⟨["plant", "cc"],
           [[("plant", Val.str "P1"), ("cc", Val.str "C1")]]⟩,
         some ⟨["plant", "cc"],
           [[("plant", Val.str "P1"), ("cc", Val.str "C1")],
            [("plant", Val.str "P2"), ("cc", Val.str "C2")]]⟩, []⟩ true).1.src_df :=
  import_twice_eq_once_conditional
    ⟨some ⟨["plant", "cc"], [[("plant", Val.str "P1"), ("cc", Val.str "C1")]]⟩,
     some ⟨["plant", "cc"],
       [[("plant", Val.str "P1"), ("cc", Val.str "C1")],
        [("plant", Val.str "P2"), ("cc", Val.str "C2")]]⟩, []⟩
    ⟨["plant", "cc"],
       [[("plant", Val.str "P1"), ("cc", Val.str "C1")],
        [("plant", Val.str "P2"), ("cc", Val.str "C2")]]⟩
    ⟨["plant", "cc"], [[("plant", Val.str "P1"), ("cc", Val.str "C1")]]⟩
    "plant" "cc" rfl (by decide) rfl (by decide) rfl (by decide) (by decide)

/-! Helper lemmas for normalization idempotence.  The output alphabet of
normalize is lower-case ASCII alphanumerics and single spaces; every stage
of the pipeline is the identity on such strings. -/

/-- Code point ranges of clean characters. -/
theorem cleanCh_toNat (c : Char) (h : cleanCh c = true) :
    (97 ≤ c.toNat ∧ c.toNat ≤ 122) ∨ (48 ≤ c.toNat ∧ c.toNat ≤ 57) ∨
    c.toNat = 32 := by
  unfold cleanCh isLowAlnum at h
  simp only [Bool.or_eq_true, Bool.and_eq_true, decide_eq_true_eq,
    beq_iff_eq] at h
  rcases h with (⟨h1, h2⟩ | ⟨h1, h2⟩) | h3
  · exact Or.inl ⟨h1, h2⟩
  · exact Or.inr (Or.inl ⟨h1, h2⟩)
  · refine Or.inr (Or.inr ?_)
    rw [h3]
    rfl

/-- Stripping only drops characters. -/
theorem mem_stripChars {c : Char} {l : List Char} (h : c ∈ stripChars l) :
    c ∈ l := by
  unfold stripChars at h
  rw [List.mem_reverse] at h
  have h2 := (List.dropWhile_suffix (l := (l.dropWhile pyIsSpace).reverse)
    pyIsSpace).subset h
  rw [List.mem_reverse] at h2
  exact (List.dropWhile_suffix pyIsSpace).subset h2

/-- Collapsing spaces only drops characters. -/
theorem mem_collapseSpaces {c : Char} : ∀ {l : List Char},
    c ∈ collapseSpaces l → c ∈ l := by
  intro l
  induction l with
  | nil =>
    intro h
    exact h
  | cons a t ih =>
    intro h
    cases t with
    | nil => simpa [collapseSpaces] using h
    | cons b rest =>
      simp only [collapseSpaces] at h
      split at h
      · exact List.mem_cons_of_mem a (ih h)
      · rcases List.mem_cons.mp h with rfl | h2
        · exact List.mem_cons_self _ _
        · exact List.mem_cons_of_mem a (ih h2)

/-- Unfolding equation of collapseSpaces on two or more characters. -/
theorem collapseSpaces_cons_cons (a b : Char) (rest : List Char) :
    collapseSpaces (a :: b :: rest) =
      if a = ' ' && b = ' ' then collapseSpaces (b :: rest)
      else a :: collapseSpaces (b :: rest) := rfl

/-- Collapsing spaces keeps the head character. -/
theorem collapse_head : ∀ (xs : List Char) (x : Char),
    (collapseSpaces (x :: xs)).head? = some x := by
  intro xs
  induction xs with
  | nil =>
    intro x
    rfl
  | cons y rest ih =>
    intro x
    by_cases hxy : x = ' ' ∧ y = ' '
    · have hc : collapseSpaces (x :: y :: rest) = collapseSpaces (y :: rest) := by
        rw [collapseSpaces_cons_cons, if_pos (by simp [hxy.1, hxy.2])]
      rw [hc, ih y, hxy.1, hxy.2]
    · have hcond : (x = ' ' && y = ' ') ≠ true := by
        intro hcc
        rw [Bool.and_eq_true, decide_eq_true_eq, decide_eq_true_eq] at hcc
        exact hxy hcc
      have hc : collapseSpaces (x :: y :: rest) =
          x :: collapseSpaces (y :: rest) := by
        rw [collapseSpaces_cons_cons, if_neg hcond]
      rw [hc]
      rfl

/-- Collapsing spaces leaves no two adjacent spaces. -/
theorem collapse_noTwo : ∀ l : List Char, NoTwo (collapseSpaces l) := by
  intro l
  induction l with
  | nil => exact List.chain'_nil
  | cons a t ih =>
    cases t with
    | nil => exact List.chain'_singleton a
    | cons b rest =>
      by_cases hab : a = ' ' ∧ b = ' '
      · have hc : collapseSpaces (a :: b :: rest) = collapseSpaces (b :: rest) := by
          rw [collapseSpaces_cons_cons, if_pos (by simp [hab.1, hab.2])]
        rw [hc]
        exact ih
      · have hcond : (a = ' ' && b = ' ') ≠ true := by
          intro hcc
          rw [Bool.and_eq_true, decide_eq_true_eq, decide_eq_true_eq] at hcc
          exact hab hcc
        have hc : collapseSpaces (a :: b :: rest) =
            a :: collapseSpaces (b :: rest) := by
          rw [collapseSpaces_cons_cons, if_neg hcond]
        rw [hc]
        show List.Chain' (fun x y => ¬(x = ' ' ∧ y = ' '))
          (a :: collapseSpaces (b :: rest))
        rw [List.chain'_cons']
        refine ⟨?_, ih⟩
        intro z hz
        rw [collapse_head rest b] at hz
        have hzb : z = b := by
          simpa using hz.symm
        rw [hzb]
        exact hab

/-- The relation behind NoTwo is symmetric. -/
theorem noTwo_symm {a b : Char} (h : ¬(a = ' ' ∧ b = ' ')) :
    ¬(b = ' ' ∧ a = ' ') :=
  fun hc => h ⟨hc.2, hc.1⟩

/-- Stripping preserves the no-two-adjacent-spaces property. -/
theorem noTwo_strip (l : List Char) (h : NoTwo l) : NoTwo (stripChars l) := by
  unfold stripChars
  have h1 : NoTwo (l.dropWhile pyIsSpace) :=
    h.suffix (List.dropWhile_suffix pyIsSpace)
  have h2 : List.Chain' (flip (fun a b => ¬(a = ' ' ∧ b = ' ')))
      (l.dropWhile pyIsSpace) := h1.imp (fun _ _ hab => noTwo_symm hab)
  have h3 : List.Chain' (fun a b => ¬(a = ' ' ∧ b = ' '))
      ((l.dropWhile pyIsSpace).reverse) := List.chain'_reverse.mpr h2
  have h4 : List.Chain' (fun a b => ¬(a = ' ' ∧ b = ' '))
      (((l.dropWhile pyIsSpace).reverse).dropWhile pyIsSpace) :=
    h3.suffix (List.dropWhile_suffix pyIsSpace)
  have h5 : List.Chain' (flip (fun a b => ¬(a = ' ' ∧ b = ' ')))
      (((l.dropWhile pyIsSpace).reverse).dropWhile pyIsSpace) :=
    h4.imp (fun _ _ hab => noTwo_symm hab)
  exact List.chain'_reverse.mpr h5

/-- Collapsing is the identity on strings without adjacent spaces. -/
theorem collapse_id : ∀ l : List Char, NoTwo l → collapseSpaces l = l := by
  intro l
  induction l with
  | nil =>
    intro _
    rfl
  | cons a t ih =>
    intro h
    cases t with
    | nil => rfl
    | cons b rest =>
      have h2 : List.Chain' (fun x y => ¬(x = ' ' ∧ y = ' '))
          (a :: b :: rest) := h
      rw [List.chain'_cons] at h2
      have hcond : (a = ' ' && b = ' ') ≠ true := by
        intro hcc
        rw [Bool.and_eq_true, decide_eq_true_eq, decide_eq_true_eq] at hcc
        exact h2.1 hcc
      rw [collapseSpaces_cons_cons, if_neg hcond]
      rw [ih h2.2]

/-- The head of a dropWhile result fails the predicate. -/
theorem dropWhile_head_false (p : Char → Bool) : ∀ (x : List Char) (a : Char),
    (x.dropWhile p).head? = some a → p a = false := by
  intro x
  induction x with
  | nil =>
    intro a h
    cases h
  | cons b t ih =>
    intro a h
    by_cases hb : p b = true
    · rw [List.dropWhile_cons_of_pos hb] at h
      exact ih a h
    · rw [List.dropWhile_cons_of_neg (by simpa using hb)] at h
      have hba : b = a := by simpa using h
      rw [← hba]
      simpa using hb

/-- dropWhile is the identity when the head already fails the predicate. -/
theorem dropWhile_eq_self_of_head (p : Char → Bool) (x : List Char)
    (h : ∀ a, x.head? = some a → p a = false) : x.dropWhile p = x := by
  cases x with
  | nil => rfl
  | cons b t =>
    have hb := h b rfl
    simp [List.dropWhile_cons, hb]

/-- dropWhile is idempotent. -/
theorem dropWhile_dropWhile (p : Char → Bool) (x : List Char) :
    (x.dropWhile p).dropWhile p = x.dropWhile p :=
  dropWhile_eq_self_of_head p _ (dropWhile_head_false p x)

/-- A non-empty dropWhile result keeps the last element. -/
theorem dropWhile_getLast (p : Char → Bool) : ∀ (y : List Char),
    y.dropWhile p ≠ [] → (y.dropWhile p).getLast? = y.getLast? := by
  intro y
  induction y with
  | nil =>
    intro h
    exact absurd rfl h
  | cons a t ih =>
    intro h
    by_cases ha : p a = true
    · rw [List.dropWhile_cons_of_pos ha] at h ⊢
      rw [ih h]
      have ht : t ≠ [] := by
        intro he
        rw [he] at h
        exact h rfl
      cases t with
      | nil => exact absurd rfl ht
      | cons c u => rw [List.getLast?_cons_cons]
    · rw [List.dropWhile_cons_of_neg (by simpa using ha)]

/-- Stripping is idempotent. -/
theorem strip_strip (l : List Char) :
    stripChars (stripChars l) = stripChars l := by
  have hBd : (stripChars l).dropWhile pyIsSpace = stripChars l := by
    apply dropWhile_eq_self_of_head
    intro a ha
    unfold stripChars at ha
    rw [List.head?_reverse] at ha
    have hne : ((l.dropWhile pyIsSpace).reverse.dropWhile pyIsSpace) ≠ [] := by
      intro he
      rw [he] at ha
      cases ha
    rw [dropWhile_getLast _ _ hne, List.getLast?_reverse] at ha
    exact dropWhile_head_false pyIsSpace l a ha
  rw [show stripChars (stripChars l) =
    (((stripChars l).dropWhile pyIsSpace).reverse.dropWhile pyIsSpace).reverse
    from rfl]
  rw [hBd]
  have hrev : (stripChars l).reverse =
      (l.dropWhile pyIsSpace).reverse.dropWhile pyIsSpace := by
    unfold stripChars
    rw [List.reverse_reverse]
  rw [hrev, dropWhile_dropWhile]
  unfold stripChars
  rfl

/-- The Turkish fold table is the identity on clean characters. -/
theorem turkishFold_clean {c : Char} (h : cleanCh c = true) :
    turkishFold c = c := by
  have hn := cleanCh_toNat c h
  have hle : c.toNat ≤ 122 := by
    rcases hn with ⟨h1, h2⟩ | ⟨h1, h2⟩ | h3 <;> omega
  have hne : ∀ d : Char, 122 < d.toNat → c ≠ d := by
    intro d hd he
    rw [he] at hle
    omega
  unfold turkishFold
  rw [if_neg (hne 'ı' (by decide)), if_neg (hne 'İ' (by decide)),
    if_neg (hne 'ş' (by decide)), if_neg (hne 'Ş' (by decide)),
    if_neg (hne 'ğ' (by decide)), if_neg (hne 'Ğ' (by decide)),
    if_neg (hne 'ö' (by decide)), if_neg (hne 'Ö' (by decide)),
    if_neg (hne 'ü' (by decide)), if_neg (hne 'Ü' (by decide)),
    if_neg (hne 'ç' (by decide)), if_neg (hne 'Ç' (by decide))]

/-- The NFKD + ASCII fold is the identity on clean characters. -/
theorem nfkd_clean {c : Char} (h : cleanCh c = true) :
    nfkdAsciiChar c = [c] := by
  have hn := cleanCh_toNat c h
  have hlt : c.toNat < 128 := by
    rcases hn with ⟨h1, h2⟩ | ⟨h1, h2⟩ | h3 <;> omega
  unfold nfkdAsciiChar
  rw [if_pos hlt]

/-- flatMap of a singleton-producing function is the identity. -/
theorem flatMap_singleton_id {l : List Char}
    (h : ∀ c ∈ l, nfkdAsciiChar c = [c]) : l.flatMap nfkdAsciiChar = l := by
  induction l with
  | nil => rfl
  | cons a t ih =>
    rw [List.flatMap_cons, h a (List.mem_cons_self a t),
      ih (fun c hc => h c (List.mem_cons_of_mem a hc))]
    rfl

/-- Lower-casing is the identity on clean characters. -/
theorem pyLowerChar_clean {c : Char} (h : cleanCh c = true) :
    pyLowerChar c = c := by
  have hn := cleanCh_toNat c h
  unfold pyLowerChar
  rw [if_neg ?_]
  rcases hn with ⟨h1, h2⟩ | ⟨h1, h2⟩ | h3 <;> omega

/-- Spaceification is the identity on clean characters. -/
theorem spaceifyChar_clean {c : Char} (h : cleanCh c = true) :
    spaceifyChar c = c := by
  unfold cleanCh at h
  rcases Bool.or_eq_true_iff.mp h with h1 | h1
  · unfold spaceifyChar
    rw [if_pos h1]
  · have hc : c = ' ' := by simpa using h1
    rw [hc]
    rfl

/-- Every character of a normalize output is clean. -/
theorem normalizeChars_clean (l : List Char) :
    ∀ c ∈ normalizeChars l, cleanCh c = true := by
  intro c hc
  unfold normalizeChars at hc
  have h1 := mem_stripChars hc
  have h2 := mem_collapseSpaces h1
  obtain ⟨x, _, rfl⟩ := List.mem_map.mp h2
  unfold spaceifyChar
  by_cases hx2 : isLowAlnum x = true
  · rw [if_pos hx2]
    simp [cleanCh, hx2]
  · rw [if_neg hx2]
    rfl

/-- The normalization pipeline is idempotent on character lists. -/
theorem normalizeChars_idem (l : List Char) :
    normalizeChars (normalizeChars l) = normalizeChars l := by
  have hclean := normalizeChars_clean l
  have hstrip : stripChars (normalizeChars l) = normalizeChars l := by
    rw [show normalizeChars l = stripChars (collapseSpaces
      (((((stripChars l).map turkishFold).flatMap nfkdAsciiChar).map
        pyLowerChar).map spaceifyChar)) from rfl, strip_strip]
  have hturk : (normalizeChars l).map turkishFold = normalizeChars l := by
    have he : (normalizeChars l).map turkishFold = (normalizeChars l).map id :=
      List.map_congr_left (fun a ha => turkishFold_clean (hclean a ha))
    rw [he, List.map_id]
  have hnfkd : (normalizeChars l).flatMap nfkdAsciiChar = normalizeChars l :=
    flatMap_singleton_id (fun c hc => nfkd_clean (hclean c hc))
  have hlow : (normalizeChars l).map pyLowerChar = normalizeChars l := by
    have he : (normalizeChars l).map pyLowerChar = (normalizeChars l).map id :=
      List.map_congr_left (fun a ha => pyLowerChar_clean (hclean a ha))
    rw [he, List.map_id]
  have hspace : (normalizeChars l).map spaceifyChar = normalizeChars l := by
    have he : (normalizeChars l).map spaceifyChar = (normalizeChars l).map id :=
      List.map_congr_left (fun a ha => spaceifyChar_clean (hclean a ha))
    rw [he, List.map_id]
  have hNoTwo : NoTwo (normalizeChars l) := by
    rw [show normalizeChars l = stripChars (collapseSpaces
      (((((stripChars l).map turkishFold).flatMap nfkdAsciiChar).map
        pyLowerChar).map spaceifyChar)) from rfl]
    exact noTwo_strip _ (collapse_noTwo _)
  have hcollapse : collapseSpaces (normalizeChars l) = normalizeChars l :=
    collapse_id _ hNoTwo
  rw [show normalizeChars (normalizeChars l) = stripChars (collapseSpaces
    (((((stripChars (normalizeChars l)).map turkishFold).flatMap
      nfkdAsciiChar).map pyLowerChar).map spaceifyChar)) from rfl]
  rw [hstrip, hturk, hnfkd, hlow, hspace, hcollapse, hstrip]

/-! C9: normalization is idempotent, insensitive to case, Turkish
diacritics and punctuation spacing, and total (claim confirmed). -/

/-- C9: normalize(normalize(x)) equals normalize(x) for every string; the
case-, diacritic- and punctuation-insensitive equality instance
normalize("İş Yeri") = normalize("is yeri") holds; and normalize is total
with the null input yielding the empty key. -/
theorem normalize_idempotent_insensitive_total :
    (∀ s : String, normStr (normStr s) = normStr s) ∧
    normStr "İş Yeri" = normStr "is yeri" ∧
    normalize none = "" := by
  refine ⟨?_, by decide, rfl⟩
  intro s
  show String.mk (normalizeChars (normStr s).data) = normStr s
  have hd : (normStr s).data = normalizeChars s.data := rfl
  rw [hd, normalizeChars_idem]
  rfl

end CopyOfExcel
